import Mathlib

/-!
# Welch power-spectral-density estimator: embedding and verification

Shallow embedding of `welch.c`, `utility.c`, `fftw.c` and `cufft.c`.

Modelling conventions.

* A C `double` is an element of a type `K` that carries the operations the
  code uses.  The theorems take `K` to be an arbitrary linearly ordered field:
  exact arithmetic, without rounding, infinities or NaN.  Where these matter
  the code is evaluated on `Double`, a model of IEEE 754 binary64 arithmetic
  with rounding to nearest, ties to even.
* A C `int` is an `Int`; `/` and `%` are the truncating `Int.tdiv` and
  `Int.tmod`, and a division whose divisor is zero is undefined behaviour,
  reported as `Outcome.undefinedBehaviour`.  Values are assumed to stay inside
  the range of `int`.
* An array is the list of its elements; a pointer that may be `NULL` is an
  `Option`.  Memory returned by `malloc` holds arbitrary values, given by
  `garbage`.
* Whether an allocation or an external library call succeeds, and what the
  external transform libraries compute, is a parameter (`WelchEnv`, `LibEnv`).
* The caller-visible output parameters of `welch` are passed in and returned
  as an `Outputs` record; the record of a returned call also lists the buffers
  still allocated and the provider invocations made.
* The segment loop of `welch` runs on fuel `lenSignal + 1`, which is enough
  whenever its stride is positive (`segmentLoop_completes`); a loop that uses
  it up is reported as `Outcome.diverges`.
-/

namespace Welch

/-! ## Data model -/

/-- Function return status, `welchStatus_t` of `welch.h`. -/
inductive welchStatus_t
  | WELCH_SUCCESS
  | WELCH_FAILURE
  deriving DecidableEq, Repr

open welchStatus_t

/-- Backend code `FFTW` of `welch.c`. -/
def FFTW : Int := 0

/-- Backend code `FFTW_OPENMP` of `welch.c`. -/
def FFTW_OPENMP : Int := 1

/-- Backend code `CUFFT` of `welch.c`. -/
def CUFFT : Int := 2

/-- Array read `a[i]`. -/
def rd {K : Type} [Zero K] (a : List K) (i : Int) : K :=
  if 0 ≤ i then a.getD i.toNat 0 else 0

/-- Array write `a[i] = v`. -/
def wr {K : Type} (a : List K) (i : Int) (v : K) : List K :=
  if 0 ≤ i then a.set i.toNat v else a

/-- The counted loop `for (i = lo; i < hi; ++i) body`, run on a state. -/
def forLoop {σ : Type} (lo hi : Int) (body : Int → σ → σ) (s : σ) : σ :=
  (List.range (hi - lo).toNat).foldl (fun st (k : Nat) => body (lo + (k : Int)) st) s

/-- Result of `malloc (count * sizeof (double))`: `NULL` when the request is
refused, otherwise a block of `count` cells with arbitrary contents. -/
def malloc {K : Type} (granted : Bool) (garbage : Nat → K) (count : Int) : Option (List K) :=
  if granted then some ((List.range count.toNat).map garbage) else none

/-- C remainder `a % b`; `none` is division by zero. -/
def cmod (a b : Int) : Option Int :=
  if b = 0 then none else some (Int.tmod a b)

/-- C quotient `a / b`; `none` is division by zero. -/
def cdiv (a b : Int) : Option Int :=
  if b = 0 then none else some (Int.tdiv a b)

/-! ## utility.c -/

/-- What `padZero` leaves behind: its status, the array `x`, `*xPadded`, and
the calls of `malloc` it made, each recorded as the number of cells requested,
in program order. -/
structure PadZeroResult (K : Type) where
  status : welchStatus_t
  x : List K
  xPadded : Option (List K)
  requests : List Int
  deriving DecidableEq

/-- Memory touched by the two loops of `padZero`: the source and the new block. -/
structure PadZeroMem (K : Type) where
  x : List K
  xPadded : List K

/-- Function `padZero` of `utility.c`. -/
def padZero {K : Type} [Zero K] (granted : Bool) (garbage : Nat → K)
    (x : List K) (n : Int) (xPadded : Option (List K)) (nPadded : Int) : PadZeroResult K :=
  if n > nPadded then
    ⟨WELCH_FAILURE, x, xPadded, []⟩
  else
    -- the only call of malloc, for nPadded cells
    match malloc granted garbage nPadded with
    | none => ⟨WELCH_FAILURE, x, none, [nPadded]⟩
    | some block =>
      -- Copy x
      let m1 := forLoop 0 n
        (fun i (m : PadZeroMem K) => { m with xPadded := wr m.xPadded i (rd m.x i) }) ⟨x, block⟩
      -- Pad zeros; the index continues where the first loop stopped
      let m2 := forLoop (max 0 n) nPadded
        (fun i (m : PadZeroMem K) => { m with xPadded := wr m.xPadded i 0 }) m1
      ⟨WELCH_SUCCESS, m2.x, some m2.xPadded, [nPadded]⟩

/-! ## fftw.c and cufft.c -/

/-- Behaviour of the operating system and of the external FFTW, CUDA and cuFFT
libraries during one provider call.  Complex arrays are flat arrays of doubles,
element `i` having its real part at `2 i` and its imaginary part at `2 i + 1`. -/
structure LibEnv (K : Type) where
  /-- Contents of freshly allocated memory. -/
  garbage : Nat → K
  /-- Whether the `malloc` of `padZero` is granted. -/
  mallocPadded : Bool
  /-- Whether the allocation of the host array `xfftComplex` is granted. -/
  mallocComplex : Bool
  /-- Array `xfftComplex` after `fftw_execute` of an r2c plan of the given size. -/
  fftw_execute : Int → List K → List K
  /-- Whether `cudaMalloc` of `d_xPadded` succeeds. -/
  cudaMallocPadded : Bool
  /-- Whether `cudaMalloc` of `d_xfftComplex` succeeds. -/
  cudaMallocComplex : Bool
  /-- Whether the host-to-device `cudaMemcpy` succeeds. -/
  cudaMemcpyToDevice : Bool
  /-- Whether `cufftPlan1d` succeeds. -/
  cufftPlan1d : Bool
  /-- Device array `d_xfftComplex` after `cufftExecD2Z`, or `none` when it fails. -/
  cufftExecD2Z : Int → List K → Option (List K)
  /-- Whether the device-to-host `cudaMemcpy` succeeds. -/
  cudaMemcpyToHost : Bool

/-- The conversion "complex result to real" of `fftw.c`. -/
def fftw_convert {K : Type} [Zero K] (xfftComplex : List K) (xfft : List K) (nfft : Int) : List K :=
  let xfft := wr xfft 0 (rd xfftComplex (2 * 0))
  let xfft := forLoop 1 (Int.tdiv (nfft - 1) 2 + 1)
    (fun i a => wr (wr a (2 * i - 1) (rd xfftComplex (2 * i))) (2 * i) (rd xfftComplex (2 * i + 1)))
    xfft
  if Int.tmod nfft 2 = 0 then
    wr xfft (nfft - 1) (rd xfftComplex (2 * Int.tdiv nfft 2))
  else xfft

/-- Function `fftw` of `fftw.c`: status and contents of `xfft` afterwards. -/
def fftw {K : Type} [Zero K] (env : LibEnv K)
    (x : List K) (n : Int) (xfft : List K) (nfft : Int) (useOpenMP : Int) :
    welchStatus_t × List K :=
  -- Pad x with 0 if n < nfft
  let padded := padZero env.mallocPadded env.garbage x n none nfft
  if padded.status ≠ WELCH_SUCCESS then
    (WELCH_FAILURE, xfft)
  else if env.mallocComplex = false then
    (WELCH_FAILURE, xfft)
  else
    let _threads := useOpenMP
    let xfftComplex := env.fftw_execute nfft (padded.xPadded.getD [])
    (WELCH_SUCCESS, fftw_convert xfftComplex xfft nfft)

/-- The `cudaMemcpy` of `count` doubles from `src` into `dst`. -/
def cudaMemcpy {K : Type} (dst src : List K) (count : Int) : List K :=
  src.take count.toNat ++ dst.drop count.toNat

/-- The conversion "complex result to real" of `cufft.c`. -/
def cufft_convert {K : Type} [Zero K] (xfftComplex : List K) (xfft : List K) (nfft : Int) : List K :=
  let xfft := wr xfft 0 (rd xfftComplex (2 * 0))
  let xfft := forLoop 1 (Int.tdiv (nfft - 1) 2 + 1)
    (fun i a => wr (wr a (2 * i - 1) (rd xfftComplex (2 * i))) (2 * i) (rd xfftComplex (2 * i + 1)))
    xfft
  if Int.tmod nfft 2 = 0 then
    wr xfft (nfft - 1) (rd xfftComplex (2 * Int.tdiv nfft 2))
  else xfft

/-- Function `cufft` of `cufft.c`: status and contents of `xfft` afterwards. -/
def cufft {K : Type} [Zero K] (env : LibEnv K)
    (x : List K) (n : Int) (xfft : List K) (nfft : Int) : welchStatus_t × List K :=
  -- Pad x with 0 if n < nfft
  let padded := padZero env.mallocPadded env.garbage x n none nfft
  if padded.status ≠ WELCH_SUCCESS then
    (WELCH_FAILURE, xfft)
  else
    -- host array of nfft / 2 + 1 complex numbers
    match malloc env.mallocComplex env.garbage (2 * (Int.tdiv nfft 2 + 1)) with
    | none => (WELCH_FAILURE, xfft)
    | some xfftComplex =>
      if env.cudaMallocPadded = false then (WELCH_FAILURE, xfft)
      else if env.cudaMallocComplex = false then (WELCH_FAILURE, xfft)
      else if env.cudaMemcpyToDevice = false then (WELCH_FAILURE, xfft)
      else if env.cufftPlan1d = false then (WELCH_FAILURE, xfft)
      else
        match env.cufftExecD2Z nfft (padded.xPadded.getD []) with
        | none => (WELCH_FAILURE, xfft)
        | some d_xfftComplex =>
          if env.cudaMemcpyToHost = false then (WELCH_FAILURE, xfft)
          else
            -- nfft * sizeof (cufftDoubleReal) bytes are copied
            let xfftComplex := cudaMemcpy xfftComplex d_xfftComplex nfft
            (WELCH_SUCCESS, cufft_convert xfftComplex xfft nfft)

/-! ## welch.c -/

/-- The buffers `welch` allocates. -/
inductive Buffer
  | window
  | signalfft
  | PxxInternal
  | frequencyInternal
  | windowedSignal
  deriving DecidableEq, Repr

/-- Behaviour of the operating system during one call of `welch`. -/
structure WelchEnv (K : Type) where
  /-- Contents of freshly allocated memory. -/
  garbage : Nat → K
  /-- Whether the `malloc` of the given buffer is granted. -/
  granted : Buffer → Bool

/-- The transform providers `welch` dispatches to.  The first argument counts
the provider invocations made earlier in the same call of `welch`; the others
are those of the C functions; the result is the status and the contents of
`xfft` afterwards. -/
structure Backends (K : Type) where
  fftw : Nat → List K → Int → List K → Int → Int → welchStatus_t × List K
  cufft : Nat → List K → Int → List K → Int → welchStatus_t × List K

/-- The providers of `fftw.c` and `cufft.c`, in the given library environments. -/
def sourceBackends {K : Type} [Zero K] (env : Nat → LibEnv K) : Backends K :=
  ⟨fun k => fftw (env k), fun k => cufft (env k)⟩

/-- Caller-visible output parameters `*Pxx`, `*frequency` and `*lenPxx`. -/
structure Outputs (K : Type) where
  Pxx : Option (List K)
  frequency : Option (List K)
  lenPxx : Int
  deriving DecidableEq

/-- One invocation of a transform provider: the segment offset `i` at which it
was made and the arguments `x`, `n` and `nfft` it received. -/
structure Invocation (K : Type) where
  offset : Int
  x : List K
  n : Int
  nfft : Int
  deriving DecidableEq

/-- A call of `welch` that returned. -/
structure Returned (K : Type) where
  status : welchStatus_t
  /-- Caller-visible outputs after the call. -/
  out : Outputs K
  /-- Buffers allocated by the call and not freed when it returns. -/
  live : List Buffer
  /-- Provider invocations, in order. -/
  calls : List (Invocation K)
  deriving DecidableEq

/-- How a call of `welch` ends. -/
inductive Outcome (K : Type)
  | undefinedBehaviour
  | diverges
  | returned (r : Returned K)
  deriving DecidableEq

/-- Release of a buffer: `free`. -/
def free (b : Buffer) (live : List Buffer) : List Buffer :=
  live.erase b

/-- Local arrays of `welch` that the segment loop updates. -/
structure SegmentState (K : Type) where
  windowedSignal : List K
  signalfft : List K
  PxxInternal : List K
  calls : List (Invocation K)

/-- How the segment loop ends. -/
inductive SegmentExit (K : Type)
  | completed (s : SegmentState K)
  | providerFailed (s : SegmentState K)
  | outOfFuel

/-- The step "add the squared magnitude of FFT to Pxx" of `welch`. -/
def accumulate {K : Type} [Zero K] [Add K] [Mul K]
    (signalfft : List K) (nfft lenPxxInternal : Int) (PxxInternal : List K) : List K :=
  let PxxInternal := wr PxxInternal 0 (rd PxxInternal 0 + rd signalfft 0 * rd signalfft 0)
  forLoop 1 lenPxxInternal
    (fun j P =>
      if Int.tmod nfft 2 = 0 ∧ j = lenPxxInternal - 1 then
        wr P j (rd P j + rd signalfft (nfft - 1) * rd signalfft (nfft - 1))
      else
        wr P j (rd P j + (rd signalfft (2 * j - 1) * rd signalfft (2 * j - 1)
                          + rd signalfft (2 * j) * rd signalfft (2 * j))))
    PxxInternal

/-- One iteration of the loop "compute FFT of each segment, and add squared sums
to Pxx" of `welch`, at offset `i`: the provider's status and the local arrays
afterwards (on failure the accumulator is as before). -/
def segmentBody {K : Type} [Zero K] [Add K] [Mul K] (B : Backends K)
    (signal window : List K) (lenSegment fftCall nfft lenPxxInternal : Int)
    (i : Int) (s : SegmentState K) : welchStatus_t × SegmentState K :=
  -- Convolve the current segment with window
  let windowedSignal := forLoop 0 lenSegment
    (fun j a => wr a j (rd signal (i + j) * rd window j)) s.windowedSignal
  -- Compute FFT of the convolved signal
  let r :=
    if fftCall = FFTW then
      B.fftw s.calls.length windowedSignal lenSegment s.signalfft nfft 0
    else if fftCall = FFTW_OPENMP then
      B.fftw s.calls.length windowedSignal lenSegment s.signalfft nfft 1
    else
      B.cufft s.calls.length windowedSignal lenSegment s.signalfft nfft
  let calls := s.calls ++ [⟨i, windowedSignal, lenSegment, nfft⟩]
  if r.1 = WELCH_FAILURE then
    (WELCH_FAILURE, ⟨windowedSignal, r.2, s.PxxInternal, calls⟩)
  else
    -- Add the squared magnitude of FFT to Pxx
    (WELCH_SUCCESS, ⟨windowedSignal, r.2, accumulate r.2 nfft lenPxxInternal s.PxxInternal, calls⟩)

/-- The loop "compute FFT of each segment, and add squared sums to Pxx" of
`welch`, from offset `i` on; `fuel` bounds the number of iterations. -/
def segmentLoop {K : Type} [Zero K] [Add K] [Mul K] (B : Backends K)
    (signal window : List K) (lenSignal lenSegment lenOverlap : Int)
    (fftCall nfft lenPxxInternal : Int) :
    Nat → Int → SegmentState K → SegmentExit K
  | 0, _, _ => SegmentExit.outOfFuel
  | fuel + 1, i, s =>
    if i + lenSegment ≤ lenSignal then
      let b := segmentBody B signal window lenSegment fftCall nfft lenPxxInternal i s
      if b.1 = WELCH_FAILURE then
        SegmentExit.providerFailed b.2
      else
        segmentLoop B signal window lenSignal lenSegment lenOverlap fftCall nfft lenPxxInternal
          fuel (i + (lenSegment - lenOverlap)) b.2
    else
      SegmentExit.completed s

/-- The step "scale Pxx and average it over number of segments" of `welch`. -/
def scalePxx {K : Type} [Zero K] [Mul K] [Div K] [NatCast K] [IntCast K]
    (scale : K) (numSegment lenPxxInternal : Int) (PxxInternal : List K) : List K :=
  forLoop 0 lenPxxInternal
    (fun i P =>
      if i = 0 ∨ i = lenPxxInternal - 1 then
        wr P i (rd P i * (scale / (numSegment : K)))
      else
        wr P i (rd P i * (scale * 2 / (numSegment : K))))
    PxxInternal

/-- The step "get frequencies" of `welch`. -/
def getFrequencies {K : Type} [Mul K] [Div K] [IntCast K]
    (samplingFrequency : K) (nfft lenPxxInternal : Int) (frequencyInternal : List K) : List K :=
  forLoop 0 lenPxxInternal
    (fun i f => wr f i ((i : K) * samplingFrequency / (nfft : K)))
    frequencyInternal

/-- A return of `WELCH_FAILURE` made before any provider invocation. -/
def failure {K : Type} (out : Outputs K) (live : List Buffer) : Outcome K :=
  Outcome.returned ⟨WELCH_FAILURE, out, live, []⟩

/-- The value `welch` gives `lenPxxInternal`; the double holds an integer. -/
def lenPxxInternal (nfft : Int) : Int :=
  if Int.tmod nfft 2 = 0 then Int.tdiv nfft 2 + 1 else Int.tdiv (nfft + 1) 2

/-- The step "compute scale" of `welch`. -/
def computeScale {K : Type} [Zero K] [One K] [Add K] [Mul K] [Div K]
    (samplingFrequency : K) (window : List K) (lenSegment : Int) : K :=
  let normSquared : K := forLoop 0 lenSegment (fun i acc => acc + rd window i * rd window i) 0
  1 / (samplingFrequency * normSquared)

/-- The rectangular window `welch` builds in a fresh block. -/
def rectangularWindow {K : Type} [One K] (block : List K) (lenSignal : Int) : List K :=
  forLoop 0 lenSignal (fun i w => wr w i 1) block

/-- The backend code `welch` derives from `fftType`; `none` when unrecognized. -/
def fftCallOf (fftType : String) : Option Int :=
  if fftType = "fftw" then some FFTW
  else if fftType = "fftw_openmp" then some FFTW_OPENMP
  else if fftType = "cufft" then some CUFFT
  else none

/-- Function `welch` of `welch.c`, from "initialize variables" on: the window
and the backend code are set and `nfft` is positive. -/
def welchCompute {K : Type} [Zero K] [One K] [Add K] [Mul K] [Div K] [NatCast K] [IntCast K]
    (env : WelchEnv K) (B : Backends K)
    (signal : List K) (out : Outputs K) (samplingFrequency : K)
    (lenSignal lenSegment lenOverlap : Int) (window : List K) (fftCall nfft : Int) :
    Outcome K :=
  let live := [Buffer.window]
  match malloc (env.granted Buffer.signalfft) env.garbage nfft with
  | none => failure out (free Buffer.window live)
  | some signalfft =>
  let live := Buffer.signalfft :: live
  match malloc (env.granted Buffer.PxxInternal) env.garbage (lenPxxInternal nfft) with
  | none => failure out (free Buffer.window (free Buffer.signalfft live))
  | some PxxInternal =>
  let live := Buffer.PxxInternal :: live
  let PxxInternal := forLoop 0 (lenPxxInternal nfft) (fun i P => wr P i 0) PxxInternal
  match malloc (env.granted Buffer.frequencyInternal) env.garbage (lenPxxInternal nfft) with
  | none => failure out (free Buffer.window (free Buffer.signalfft live))
  | some frequencyInternal =>
  let live := Buffer.frequencyInternal :: live
  match malloc (env.granted Buffer.windowedSignal) env.garbage lenSegment with
  | none =>
    failure out (free Buffer.window (free Buffer.frequencyInternal
      (free Buffer.PxxInternal (free Buffer.signalfft live))))
  | some windowedSignal =>
  let live := Buffer.windowedSignal :: live
  -- Compute scale
  let scale : K := computeScale samplingFrequency window lenSegment
  -- Compute FFT of each segment, and add squared sums to Pxx
  match segmentLoop B signal window lenSignal lenSegment lenOverlap fftCall nfft
      (lenPxxInternal nfft) (lenSignal.toNat + 1) 0
      ⟨windowedSignal, signalfft, PxxInternal, []⟩ with
  | SegmentExit.outOfFuel => Outcome.diverges
  | SegmentExit.providerFailed s =>
    Outcome.returned ⟨WELCH_FAILURE, out,
      free Buffer.windowedSignal (free Buffer.window (free Buffer.frequencyInternal
        (free Buffer.PxxInternal (free Buffer.signalfft live)))), s.calls⟩
  | SegmentExit.completed s =>
  -- Scale Pxx and average it over number of segments
  match cdiv (lenSignal - lenOverlap) (lenSegment - lenOverlap) with
  | none => Outcome.undefinedBehaviour
  | some numSegment =>
  let PxxInternal := scalePxx scale numSegment (lenPxxInternal nfft) s.PxxInternal
  -- Get frequencies
  let frequencyInternal :=
    getFrequencies samplingFrequency nfft (lenPxxInternal nfft) frequencyInternal
  let live := free Buffer.windowedSignal (free Buffer.window (free Buffer.signalfft live))
  -- Return Pxx and its length
  Outcome.returned
    ⟨WELCH_SUCCESS, ⟨some PxxInternal, some frequencyInternal, lenPxxInternal nfft⟩,
      live, s.calls⟩

/-- Function `welch` of `welch.c`. -/
def welch {K : Type} [Zero K] [One K] [Add K] [Mul K] [Div K] [NatCast K] [IntCast K]
    [LE K] [DecidableRel (LE.le : K → K → Prop)] (env : WelchEnv K) (B : Backends K)
    (signal : List K) (out : Outputs K) (samplingFrequency : K)
    (lenSignal lenSegment lenOverlap : Int) (windowType fftType : String) (nfft : Int) :
    Outcome K :=
  -- Check inputs
  if samplingFrequency ≤ 0 then failure out []
  else if lenSignal ≤ 0 then failure out []
  else if lenSegment ≤ 0 then failure out []
  else if lenOverlap < 0 then failure out []
  else if lenSignal < lenSegment then failure out []
  else if lenSegment < lenOverlap then failure out []
  else
  match cmod (lenSignal - lenOverlap) (lenSegment - lenOverlap) with
  | none => Outcome.undefinedBehaviour
  | some remainder =>
  if remainder ≠ 0 then failure out []
  -- Get window function
  else if windowType = "rectangular" then
    match malloc (env.granted Buffer.window) env.garbage lenSignal with
    | none => failure out []
    | some block =>
    let window := rectangularWindow block lenSignal
    let live := [Buffer.window]
    match fftCallOf fftType with
    | none => failure out (free Buffer.window live)
    | some fftCall =>
    if nfft ≤ 0 then failure out (free Buffer.window live)
    else
      welchCompute env B signal out samplingFrequency lenSignal lenSegment lenOverlap
        window fftCall nfft
  else failure out []

/-! ## IEEE 754 binary64 arithmetic -/

/-- A value of the C type `double` in the IEEE 754 binary64 format: a finite
number given by its sign and its magnitude (a non-negative rational on the
binary64 grid; the two zeros differ in the sign only), an infinity, or a NaN. -/
inductive Double
  | finite (negative : Bool) (magnitude : ℚ)
  | infinite (negative : Bool)
  | nan
  deriving DecidableEq

/-- The power `2 ^ e` of two. -/
def pow2 (e : Int) : ℚ :=
  if 0 ≤ e then ((2 ^ e.toNat : Nat) : ℚ) else 1 / ((2 ^ (-e).toNat : Nat) : ℚ)

/-- The number of halvings that take `n` below 2, at most `fuel` of them. -/
def halvings : Nat → Nat → Nat
  | 0, _ => 0
  | fuel + 1, n => if n < 2 then 0 else halvings fuel (n / 2) + 1

/-- The binary logarithm of a positive natural number, rounded down. -/
def floorLog2 (n : Nat) : Nat :=
  halvings n n

/-- The exponent `e` with `2 ^ e <= q < 2 ^ (e + 1)`, for positive `q`. -/
def binaryExponent (q : ℚ) : Int :=
  let e : Int := (floorLog2 q.num.natAbs : Int) - (floorLog2 q.den : Int)
  if pow2 e ≤ q then e else e - 1

/-- Rounding of a non-negative rational to the nearest magnitude of binary64,
ties to even: 53 significant bits, least exponent -1022 (below it the spacing
stays `2 ^ (-1074)`), and `none` for an overflow, when the rounded magnitude
reaches `2 ^ 1024`. -/
def roundMagnitude (q : ℚ) : Option ℚ :=
  if q = 0 then some 0
  else
    let e : Int := max (binaryExponent q) (-1022)
    let ulp : ℚ := pow2 (e - 52)
    let m : ℚ := q / ulp
    let f : Int := Rat.floor m
    let n : Int :=
      if m - (f : ℚ) < 1 / 2 then f
      else if 1 / 2 < m - (f : ℚ) then f + 1
      else if f % 2 = 0 then f
      else f + 1
    let v : ℚ := (n : ℚ) * ulp
    if pow2 1024 ≤ v then none else some v

/-- The binary64 value nearest to the number of the given sign and magnitude;
an overflow gives the infinity of that sign. -/
def Double.round (negative : Bool) (q : ℚ) : Double :=
  match roundMagnitude q with
  | some v => Double.finite negative v
  | none => Double.infinite negative

/-- The binary64 value nearest to a rational number. -/
def Double.ofRat (q : ℚ) : Double :=
  if q < 0 then Double.round true (-q) else Double.round false q

/-- The number a finite binary64 value of the given sign and magnitude stands for. -/
def Double.signed (negative : Bool) (magnitude : ℚ) : ℚ :=
  if negative then -magnitude else magnitude

/-- Binary64 addition. -/
def Double.add : Double → Double → Double
  | Double.nan, _ => Double.nan
  | _, Double.nan => Double.nan
  | Double.infinite a, Double.infinite b => if a = b then Double.infinite a else Double.nan
  | Double.infinite a, Double.finite _ _ => Double.infinite a
  | Double.finite _ _, Double.infinite b => Double.infinite b
  | Double.finite a x, Double.finite b y =>
    let s : ℚ := Double.signed a x + Double.signed b y
    if s = 0 then Double.finite (a && b) 0 else Double.ofRat s

/-- Binary64 multiplication. -/
def Double.mul : Double → Double → Double
  | Double.nan, _ => Double.nan
  | _, Double.nan => Double.nan
  | Double.infinite a, Double.infinite b => Double.infinite (xor a b)
  | Double.infinite a, Double.finite b y =>
    if y = 0 then Double.nan else Double.infinite (xor a b)
  | Double.finite a x, Double.infinite b =>
    if x = 0 then Double.nan else Double.infinite (xor a b)
  | Double.finite a x, Double.finite b y => Double.round (xor a b) (x * y)

/-- Binary64 division. -/
def Double.div : Double → Double → Double
  | Double.nan, _ => Double.nan
  | _, Double.nan => Double.nan
  | Double.infinite _, Double.infinite _ => Double.nan
  | Double.infinite a, Double.finite b _ => Double.infinite (xor a b)
  | Double.finite a _, Double.infinite b => Double.finite (xor a b) 0
  | Double.finite a x, Double.finite b y =>
    if y = 0 then
      if x = 0 then Double.nan else Double.infinite (xor a b)
    else Double.round (xor a b) (x / y)

/-- The comparison `a <= b` of two binary64 values; false when either is a NaN. -/
def Double.le : Double → Double → Bool
  | Double.nan, _ => false
  | _, Double.nan => false
  | Double.infinite a, Double.infinite b => a || !b
  | Double.infinite a, Double.finite _ _ => a
  | Double.finite _ _, Double.infinite b => !b
  | Double.finite a x, Double.finite b y => decide (Double.signed a x ≤ Double.signed b y)

/-- Conversion of an `int` to `double`. -/
def Double.ofInt (z : Int) : Double :=
  Double.ofRat (z : ℚ)

instance : Zero Double := ⟨Double.finite false 0⟩

instance : One Double := ⟨Double.finite false 1⟩

instance : Add Double := ⟨Double.add⟩

instance : Mul Double := ⟨Double.mul⟩

instance : Div Double := ⟨Double.div⟩

instance : NatCast Double := ⟨fun n => Double.ofInt (n : Int)⟩

instance : IntCast Double := ⟨Double.ofInt⟩

instance : LE Double := ⟨fun a b => Double.le a b = true⟩

instance : DecidableRel (LE.le : Double → Double → Prop) :=
  fun a b => inferInstanceAs (Decidable (Double.le a b = true))

/-- An environment that grants every allocation; fresh memory holds 7. -/
def sampleEnv : WelchEnv ℚ :=
  ⟨fun _ => 7, fun _ => true⟩

/-- Providers that always succeed and return the packed spectrum 1, 1, ..., 1. -/
def sampleBackends : Backends ℚ :=
  ⟨fun _ _ _ _ nfft _ => (WELCH_SUCCESS, List.replicate nfft.toNat 1),
   fun _ _ _ _ nfft => (WELCH_SUCCESS, List.replicate nfft.toNat 1)⟩

/-- A library environment in which every allocation and library call succeeds
and both transforms return their input twice over. -/
def sampleLib : LibEnv ℚ :=
  ⟨fun _ => 7, true, true, fun _ x => x ++ x, true, true, true, true,
   fun _ x => some (x ++ x), true⟩

/-- Caller outputs before a call: null pointers and length 0. -/
def sampleOut : Outputs ℚ :=
  ⟨none, none, 0⟩

/-- The three provider invocations made on the signal 1, 2, 3, 4 with segments
of length 2 overlapping by 1. -/
def sampleCalls (nfft : Int) : List (Invocation ℚ) :=
  [⟨0, [1, 2], 2, nfft⟩, ⟨1, [2, 3], 2, nfft⟩, ⟨2, [3, 4], 2, nfft⟩]

/-- What `welch` returns on the signal 1, 2, 3, 4 with `nfft = 4`. -/
def sampleRunEven : Returned ℚ :=
  ⟨WELCH_SUCCESS, ⟨some [1 / 2, 2, 1 / 2], some [0, 1 / 4, 1 / 2], 3⟩,
    [Buffer.frequencyInternal, Buffer.PxxInternal], sampleCalls 4⟩

/-- What `welch` returns on the signal 1, 2, 3, 4 with `nfft = 3`. -/
def sampleRunOdd : Returned ℚ :=
  ⟨WELCH_SUCCESS, ⟨some [1 / 2, 1], some [0, 1 / 3], 2⟩,
    [Buffer.frequencyInternal, Buffer.PxxInternal], sampleCalls 3⟩

/-- The writes to `xfft` made by the conversion "complex result to real" of
`fftw.c` and of `cufft.c`, as pairs of index and value, in program order. -/
def convertWrites {K : Type} [Zero K] (xfftComplex : List K) (nfft : Int) : List (Int × K) :=
  let t := [((0 : Int), rd xfftComplex (2 * 0))]
  let t := forLoop 1 (Int.tdiv (nfft - 1) 2 + 1)
    (fun i t => t ++ [(2 * i - 1, rd xfftComplex (2 * i)), (2 * i, rd xfftComplex (2 * i + 1))])
    t
  if Int.tmod nfft 2 = 0 then
    t ++ [(nfft - 1, rd xfftComplex (2 * Int.tdiv nfft 2))]
  else t

/-- The components of `signalfft` whose squares the accumulation step of
`welch` adds to bin `j`, in program order. -/
def binComponents (nfft lenPxxInternal j : Int) : List Int :=
  if j = 0 then [0]
  else if Int.tmod nfft 2 = 0 ∧ j = lenPxxInternal - 1 then [nfft - 1]
  else [2 * j - 1, 2 * j]

/-- Squared magnitude of bin `j` of one packed spectrum, in the words of the
specification: `signalfft[0]^2` for bin 0, `signalfft[nfft-1]^2` for the
Nyquist bin of an even `nfft`, `signalfft[2j-1]^2 + signalfft[2j]^2` otherwise. -/
def binPower {K : Type} [Zero K] [Add K] [Mul K]
    (signalfft : List K) (nfft lenPxx j : Int) : K :=
  if j = 0 then rd signalfft 0 * rd signalfft 0
  else if nfft % 2 = 0 ∧ j = lenPxx - 1 then rd signalfft (nfft - 1) * rd signalfft (nfft - 1)
  else rd signalfft (2 * j - 1) * rd signalfft (2 * j - 1)
    + rd signalfft (2 * j) * rd signalfft (2 * j)

/-- The provider call made by one iteration of the segment loop of `welch`:
the dispatch on `fftCall`. -/
def providerResult {K : Type} (B : Backends K) (fftCall : Int) (k : Nat)
    (x : List K) (n : Int) (xfft : List K) (nfft : Int) : welchStatus_t × List K :=
  if fftCall = FFTW then B.fftw k x n xfft nfft 0
  else if fftCall = FFTW_OPENMP then B.fftw k x n xfft nfft 1
  else B.cufft k x n xfft nfft

/-- The step "convolve the current segment with window" of the segment loop of
`welch` at offset `i`, run on the scratch array `windowedSignal`. -/
def windowSegment {K : Type} [Zero K] [Mul K] (signal window : List K) (lenSegment i : Int)
    (windowedSignal : List K) : List K :=
  forLoop 0 lenSegment (fun j a => wr a j (rd signal (i + j) * rd window j)) windowedSignal

/-- An environment that refuses the frequency buffer and grants every other
allocation; fresh memory holds 7. -/
def sampleEnvNoFrequency : WelchEnv ℚ :=
  ⟨fun _ => 7, fun b => decide (b ≠ Buffer.frequencyInternal)⟩

/-! # Theorems -/

/-! ## Arrays and counted loops -/

/-- A write keeps the length of the array. -/
theorem wr_length {K : Type} (a : List K) (i : Int) (v : K) : (wr a i v).length = a.length := by
  unfold wr; split <;> simp

/-- Reading after a write: the written value at the written cell when that cell
exists, the old value elsewhere. -/
theorem rd_wr {K : Type} [Zero K] (a : List K) (i j : Int) (v : K) :
    rd (wr a i v) j = if i = j ∧ 0 ≤ i ∧ i < a.length then v else rd a j := by
  unfold rd wr
  by_cases hi : 0 ≤ i <;> by_cases hj : 0 ≤ j <;> simp only [hi, hj, if_true, if_false]
  · by_cases hij : i = j
    · subst hij
      by_cases hl : i < a.length
      · have : i.toNat < a.length := by omega
        simp [hl, this, List.getD_eq_getElem?_getD, List.getElem?_set]
      · have h1 : ¬ i.toNat < a.length := by omega
        have h2 : a.length ≤ i.toNat := by omega
        simp [hl, h1, List.getD_eq_getElem?_getD, List.getElem?_set, List.getElem?_eq_none h2]
    · have : i.toNat ≠ j.toNat := by omega
      simp [hij, this, List.getD_eq_getElem?_getD, List.getElem?_set]
  · have : i ≠ j := by omega
    simp [this]
  · simp
  · simp

/-- A property of every cell survives the write of a value that has it. -/
theorem rd_wr_pred {K : Type} [Zero K] (Q : K → Prop) (P : List K) (i : Int) (v : K)
    (hP : ∀ j, Q (rd P j)) (hv : Q v) : ∀ j, Q (rd (wr P i v) j) := by
  intro j
  rw [rd_wr]
  split
  · exact hv
  · exact hP j

/-- Inside the array a read returns the element. -/
theorem rd_of_lt {K : Type} [Zero K] (a : List K) (k : Nat) (h : k < a.length) :
    rd a (k : Int) = a[k] := by
  simp [rd, List.getD_eq_getElem?_getD, List.getElem?_eq_getElem h]

/-- Past the end of the array the model reads 0. -/
theorem rd_of_length_le {K : Type} [Zero K] (a : List K) (j : Int) (h : (a.length : Int) ≤ j) :
    rd a j = 0 := by
  unfold rd
  split
  · have : a.length ≤ j.toNat := by omega
    simp [List.getD_eq_getElem?_getD, List.getElem?_eq_none this]
  · rfl

/-- Arrays of equal length that read the same at every index are equal. -/
theorem ext_rd {K : Type} [Zero K] (a b : List K) (hlen : a.length = b.length)
    (h : ∀ j : Int, 0 ≤ j → j < a.length → rd a j = rd b j) : a = b := by
  apply List.ext_getElem hlen
  intro k h1 h2
  have := h k (by omega) (by omega)
  rwa [rd_of_lt a k h1, rd_of_lt b k h2] at this

/-- Every read of an all-zero array gives 0. -/
theorem rd_replicate {K : Type} [Zero K] (n : Nat) (j : Int) :
    rd (List.replicate n (0 : K)) j = 0 := by
  unfold rd
  split
  · by_cases h : j.toNat < n
    · simp [List.getD_eq_getElem?_getD, List.getElem?_replicate, h]
    · simp [List.getD_eq_getElem?_getD, List.getElem?_replicate, h]
  · rfl

/-- Inside a constant array a read gives the constant. -/
theorem rd_replicate_of_lt {K : Type} [Zero K] (n : Nat) (c : K) (j : Int)
    (h0 : 0 ≤ j) (h1 : j < n) : rd (List.replicate n c) j = c := by
  have : j.toNat < n := by omega
  simp [rd, h0, List.getD_eq_getElem?_getD, List.getElem?_replicate, this]

/-- A counted loop whose bound is not above its start does nothing. -/
theorem forLoop_of_le {σ : Type} (lo hi : Int) (body : Int → σ → σ) (s : σ) (h : hi ≤ lo) :
    forLoop lo hi body s = s := by
  have : (hi - lo).toNat = 0 := by omega
  simp [forLoop, this]

/-- The last iteration of a counted loop. -/
theorem forLoop_succ {σ : Type} (lo hi : Int) (body : Int → σ → σ) (s : σ) (h : lo ≤ hi) :
    forLoop lo (hi + 1) body s = body hi (forLoop lo hi body s) := by
  have h1 : (hi + 1 - lo).toNat = (hi - lo).toNat + 1 := by omega
  have h2 : lo + ((hi - lo).toNat : Int) = hi := by omega
  unfold forLoop
  rw [h1, List.range_succ, List.foldl_append]
  simp only [List.foldl_cons, List.foldl_nil, h2]

/-- Invariant rule for counted loops: `P lo` holds of the initial state and
every iteration takes `P i` to `P (i + 1)`, so `P hi` holds at the exit. -/
theorem forLoop_invariant {σ : Type} (P : Int → σ → Prop) (lo hi : Int) (body : Int → σ → σ)
    (s : σ) (hle : lo ≤ hi) (h0 : P lo s)
    (hstep : ∀ i st, lo ≤ i → i < hi → P i st → P (i + 1) (body i st)) :
    P hi (forLoop lo hi body s) := by
  obtain ⟨n, rfl⟩ : ∃ n : Nat, hi = lo + n := ⟨(hi - lo).toNat, by omega⟩
  clear hle
  induction n with
  | zero => simpa [forLoop_of_le] using h0
  | succ n ih =>
    have e : lo + ((n + 1 : Nat) : Int) = (lo + n) + 1 := by push_cast; ring
    rw [e, forLoop_succ _ _ _ _ (by omega)]
    apply hstep _ _ (by omega) (by omega)
    apply ih
    intro i st h1 h2 h3
    exact hstep i st h1 (by omega) h3

/-- A property of every cell that each iteration preserves holds at the exit. -/
theorem forLoop_pointwise {K : Type} [Zero K] (Q : K → Prop) (lo hi : Int)
    (body : Int → List K → List K) (P0 : List K)
    (hbody : ∀ i P, (∀ j, Q (rd P j)) → ∀ j, Q (rd (body i P) j))
    (h0 : ∀ j, Q (rd P0 j)) : ∀ j, Q (rd (forLoop lo hi body P0) j) := by
  by_cases h : lo ≤ hi
  · exact forLoop_invariant (fun _ st => ∀ j, Q (rd st j)) lo hi body P0 h h0
      (fun i st _ _ hst => hbody i st hst)
  · rw [forLoop_of_le _ _ _ _ (by omega)]
    exact h0

/-- A loop whose iterations keep the length keeps the length. -/
theorem forLoop_length {K : Type} (lo hi : Int) (body : Int → List K → List K) (P0 : List K)
    (hbody : ∀ i P, (body i P).length = P.length) :
    (forLoop lo hi body P0).length = P0.length := by
  by_cases h : lo ≤ hi
  · exact forLoop_invariant (fun _ st => st.length = P0.length) lo hi body P0 h rfl
      (fun i st _ _ hst => (hbody i st).trans hst)
  · rw [forLoop_of_le _ _ _ _ (by omega)]

/-- A loop that stores `c` in every cell of a block yields the constant array. -/
theorem forLoop_fill {K : Type} [Zero K] (c : K) (n : Int) (block : List K)
    (hlen : block.length = n.toNat) :
    forLoop 0 n (fun i P => wr P i c) block = List.replicate n.toNat c := by
  by_cases hn : 0 ≤ n
  · have key := forLoop_invariant
      (fun i (st : List K) => st.length = n.toNat ∧ ∀ j : Int, 0 ≤ j → j < i → rd st j = c)
      0 n (fun i P => wr P i c) block hn ⟨hlen, fun j h1 h2 => absurd h2 (by omega)⟩
      (by
        intro i st h1 h2 ⟨hl, hst⟩
        refine ⟨by simp [wr_length, hl], ?_⟩
        intro j hj1 hj2
        rw [rd_wr]
        split
        · rfl
        · rename_i hne
          apply hst j hj1
          by_contra hcon
          apply hne
          refine ⟨by omega, h1, by omega⟩)
    obtain ⟨hl, hall⟩ := key
    apply List.ext_getElem (by simp [hl])
    intro k h1 h2
    have := hall k (by omega) (by omega)
    rw [rd_of_lt _ k h1] at this
    simp [this]
  · have h0 : n.toNat = 0 := by omega
    rw [forLoop_of_le _ _ _ _ (by omega), h0]
    exact List.length_eq_zero.mp (by omega)

/-- A loop that replaces cell `i` by `f i` of its old value, for every `i` from
0 up to the length of the array, maps `f` over the array. -/
theorem forLoop_update_each {K : Type} [Zero K] (f : Int → K → K) (L : Int) (P0 : List K)
    (hlen : P0.length = L.toNat) :
    (forLoop 0 L (fun i P => wr P i (f i (rd P i))) P0).length = L.toNat ∧
    ∀ j : Int, 0 ≤ j → j < L →
      rd (forLoop 0 L (fun i P => wr P i (f i (rd P i))) P0) j = f j (rd P0 j) := by
  by_cases hL : 0 ≤ L
  · have key := forLoop_invariant
      (fun i (st : List K) => st.length = L.toNat ∧
        (∀ j : Int, 0 ≤ j → j < i → rd st j = f j (rd P0 j)) ∧
        ∀ j : Int, i ≤ j → rd st j = rd P0 j)
      0 L (fun i P => wr P i (f i (rd P i))) P0 hL
      ⟨hlen, fun j h1 h2 => absurd h2 (by omega), fun j _ => rfl⟩
      (by
        intro i st h1 h2 ⟨hl, hdone, hrest⟩
        refine ⟨by simp [wr_length, hl], ?_, ?_⟩
        · intro j hj1 hj2
          show rd (wr st i (f i (rd st i))) j = f j (rd P0 j)
          rw [rd_wr]
          split
          · rename_i hc
            rw [← hc.1, hrest i (le_refl i)]
          · rename_i hc
            apply hdone j hj1
            by_contra hcon
            exact hc ⟨by omega, h1, by omega⟩
        · intro j hj
          show rd (wr st i (f i (rd st i))) j = rd P0 j
          rw [rd_wr, if_neg (by omega)]
          exact hrest j (by omega))
    exact ⟨key.1, fun j h1 h2 => key.2.1 j h1 h2⟩
  · refine ⟨?_, fun j h1 h2 => absurd h2 (by omega)⟩
    rw [forLoop_of_le _ _ _ _ (by omega)]
    exact hlen

/-- A granted block has the requested number of cells. -/
theorem malloc_length {K : Type} (granted : Bool) (garbage : Nat → K) (count : Int)
    (block : List K) (h : malloc granted garbage count = some block) :
    block.length = count.toNat := by
  unfold malloc at h
  split at h
  · cases h; simp
  · cases h

/-- The block a granted request returns. -/
theorem malloc_granted {K : Type} (garbage : Nat → K) (count : Int) :
    malloc true garbage count = some ((List.range count.toNat).map garbage) := rfl

/-- A remainder that evaluates had a non-zero divisor. -/
theorem cmod_eq_some (a b r : Int) (h : cmod a b = some r) : b ≠ 0 ∧ r = Int.tmod a b := by
  unfold cmod at h
  split at h
  · cases h
  · cases h; exact ⟨by assumption, rfl⟩

/-- A quotient that evaluates had a non-zero divisor. -/
theorem cdiv_eq_some (a b q : Int) (h : cdiv a b = some q) : b ≠ 0 ∧ q = Int.tdiv a b := by
  unfold cdiv at h
  split at h
  · cases h
  · cases h; exact ⟨by assumption, rfl⟩

/-- Two counted loops over the same range whose iterations preserve a relation
between their states end in related states. -/
theorem forLoop_rel {σ τ : Type} (R : σ → τ → Prop) (lo hi : Int)
    (f : Int → σ → σ) (g : Int → τ → τ) (s : σ) (t : τ) (h0 : R s t)
    (hstep : ∀ i a b, lo ≤ i → i < hi → R a b → R (f i a) (g i b)) :
    R (forLoop lo hi f s) (forLoop lo hi g t) := by
  by_cases hle : lo ≤ hi
  · obtain ⟨n, rfl⟩ : ∃ n : Nat, hi = lo + n := ⟨(hi - lo).toNat, by omega⟩
    clear hle
    induction n with
    | zero => simpa [forLoop_of_le] using h0
    | succ n ih =>
      have e : lo + ((n + 1 : Nat) : Int) = (lo + n) + 1 := by push_cast; ring
      rw [e, forLoop_succ _ _ _ _ (by omega), forLoop_succ _ _ _ _ (by omega)]
      apply hstep _ _ _ (by omega) (by omega)
      apply ih
      intro i a b h1 h2 h3
      exact hstep i a b h1 (by omega) h3
  · rw [forLoop_of_le _ _ _ _ (by omega), forLoop_of_le _ _ _ _ (by omega)]
    exact h0

/-- A loop from `lo` that replaces cell `i` by `f i` of its old value updates
the cells from `lo` on and leaves the cells below `lo` alone. -/
theorem forLoop_update_from {K : Type} [Zero K] (f : Int → K → K) (lo L : Int) (P0 : List K)
    (hlo : 0 ≤ lo) (hlen : P0.length = L.toNat) :
    (forLoop lo L (fun i P => wr P i (f i (rd P i))) P0).length = L.toNat ∧
    (∀ j : Int, lo ≤ j → j < L →
      rd (forLoop lo L (fun i P => wr P i (f i (rd P i))) P0) j = f j (rd P0 j)) ∧
    ∀ j : Int, j < lo → rd (forLoop lo L (fun i P => wr P i (f i (rd P i))) P0) j = rd P0 j := by
  by_cases hL : lo ≤ L
  · have key := forLoop_invariant
      (fun i (st : List K) => st.length = L.toNat ∧
        (∀ j : Int, lo ≤ j → j < i → rd st j = f j (rd P0 j)) ∧
        ∀ j : Int, (j < lo ∨ i ≤ j) → rd st j = rd P0 j)
      lo L (fun i P => wr P i (f i (rd P i))) P0 hL
      ⟨hlen, fun j h1 h2 => absurd h2 (by omega), fun j _ => rfl⟩
      (by
        intro i st h1 h2 ⟨hl, hdone, hrest⟩
        refine ⟨by simp [wr_length, hl], ?_, ?_⟩
        · intro j hj1 hj2
          show rd (wr st i (f i (rd st i))) j = f j (rd P0 j)
          rw [rd_wr]
          split
          · rename_i hc
            rw [← hc.1, hrest i (Or.inr (le_refl i))]
          · rename_i hc
            apply hdone j hj1
            by_contra hcon
            exact hc ⟨by omega, by omega, by omega⟩
        · intro j hj
          show rd (wr st i (f i (rd st i))) j = rd P0 j
          rw [rd_wr, if_neg (by omega)]
          exact hrest j (by omega))
    exact ⟨key.1, fun j h1 h2 => key.2.1 j h1 h2, fun j hj => key.2.2 j (Or.inl hj)⟩
  · rw [forLoop_of_le _ _ _ _ (by omega)]
    exact ⟨hlen, fun j h1 h2 => absurd h2 (by omega), fun j _ => rfl⟩

/-- A refused request was not granted. -/
theorem malloc_eq_none {K : Type} (granted : Bool) (garbage : Nat → K) (count : Int)
    (h : malloc granted garbage count = none) : granted = false := by
  unfold malloc at h
  split at h
  · cases h
  · simpa using ‹¬ granted = true›

/-- A request that returned a block was granted. -/
theorem malloc_eq_some {K : Type} (granted : Bool) (garbage : Nat → K) (count : Int)
    (block : List K) (h : malloc granted garbage count = some block) : granted = true := by
  unfold malloc at h
  split at h
  · assumption
  · cases h

/-- A cell of a freshly allocated block holds the arbitrary value of its index. -/
theorem rd_map_range {K : Type} [Zero K] (g : Nat → K) (m : Nat) (j : Int) (h0 : 0 ≤ j)
    (h1 : j.toNat < m) : rd ((List.range m).map g) j = g j.toNat := by
  unfold rd
  rw [if_pos h0]
  simp [List.getD_eq_getElem?_getD, List.getElem?_map, List.getElem?_range h1]

/-! ## utility.c, fftw.c and cufft.c -/

/-- Function `padZero` fails, allocating nothing, when `n > nPadded`. -/
theorem padZero_of_lt {K : Type} [Zero K] (granted : Bool) (garbage : Nat → K) (x : List K)
    (n : Int) (xPadded : Option (List K)) (nPadded : Int) (h : nPadded < n) :
    padZero granted garbage x n xPadded nPadded = ⟨WELCH_FAILURE, x, xPadded, []⟩ := by
  unfold padZero
  rw [if_pos (by omega)]

/-- With the allocation granted and `0 <= n <= nPadded`, `padZero` succeeds with
one block of `nPadded` cells that holds `x` followed by zeros. -/
theorem padZero_granted {K : Type} [Zero K] (garbage : Nat → K) (x : List K) (n : Int)
    (xPadded : Option (List K)) (nPadded : Int)
    (hx : x.length = n.toNat) (h0 : 0 ≤ n) (hle : n ≤ nPadded) :
    ∃ buf : List K,
      padZero true garbage x n xPadded nPadded = ⟨WELCH_SUCCESS, x, some buf, [nPadded]⟩ ∧
      buf.length = nPadded.toNat ∧
      (∀ i : Int, 0 ≤ i → i < n → rd buf i = rd x i) ∧
      (∀ i : Int, n ≤ i → i < nPadded → rd buf i = 0) ∧
      (n = nPadded → buf = x) := by
  have hlen : ((List.range nPadded.toNat).map garbage).length = nPadded.toNat := by simp
  -- Copy x
  have copy := forLoop_invariant
    (fun i (m : PadZeroMem K) => m.x = x ∧ m.xPadded.length = nPadded.toNat ∧
      ∀ j : Int, 0 ≤ j → j < i → rd m.xPadded j = rd x j)
    0 n (fun i (m : PadZeroMem K) => { m with xPadded := wr m.xPadded i (rd m.x i) })
    ⟨x, (List.range nPadded.toNat).map garbage⟩ h0
    ⟨rfl, hlen, fun j h1 h2 => absurd h2 (by omega)⟩
    (by
      intro i m hi1 hi2 ⟨hmx, hml, hm⟩
      refine ⟨hmx, by simp [wr_length, hml], ?_⟩
      intro j hj1 hj2
      show rd (wr m.xPadded i (rd m.x i)) j = rd x j
      rw [rd_wr]
      split
      · rename_i hc
        rw [hmx, hc.1]
      · rename_i hc
        apply hm j hj1
        by_contra hcon
        exact hc ⟨by omega, hi1, by omega⟩)
  -- Pad zeros
  have pad := forLoop_invariant
    (fun i (m : PadZeroMem K) => m.x = x ∧ m.xPadded.length = nPadded.toNat ∧
      (∀ j : Int, 0 ≤ j → j < n → rd m.xPadded j = rd x j) ∧
      ∀ j : Int, n ≤ j → j < i → rd m.xPadded j = 0)
    n nPadded (fun i (m : PadZeroMem K) => { m with xPadded := wr m.xPadded i 0 })
    (forLoop 0 n (fun i (m : PadZeroMem K) => { m with xPadded := wr m.xPadded i (rd m.x i) })
      ⟨x, (List.range nPadded.toNat).map garbage⟩) hle
    ⟨copy.1, copy.2.1, copy.2.2, fun j h1 h2 => absurd h2 (by omega)⟩
    (by
      intro i m hi1 hi2 ⟨hmx, hml, hm1, hm2⟩
      refine ⟨hmx, by simp [wr_length, hml], ?_, ?_⟩
      · intro j hj1 hj2
        show rd (wr m.xPadded i 0) j = rd x j
        rw [rd_wr, if_neg (by omega)]
        exact hm1 j hj1 hj2
      · intro j hj1 hj2
        show rd (wr m.xPadded i 0) j = 0
        rw [rd_wr]
        split
        · rfl
        · rename_i hc
          apply hm2 j hj1
          by_contra hcon
          exact hc ⟨by omega, by omega, by omega⟩)
  obtain ⟨px, pl, p1, p2⟩ := pad
  refine ⟨_, ?_, pl, p1, p2, ?_⟩
  · unfold padZero
    rw [if_neg (by omega), malloc_granted]
    simp only [max_eq_right h0]
    rw [px]
  · intro hn
    apply ext_rd _ _ (by rw [pl, hx, hn])
    intro j hj1 hj2
    exact p1 j hj1 (by omega)

/-- Function `fftw` fails, leaving `xfft` alone, when `n > nfft`. -/
theorem fftw_of_lt {K : Type} [Zero K] (env : LibEnv K) (x : List K) (n : Int)
    (xfft : List K) (nfft useOpenMP : Int) (h : nfft < n) :
    fftw env x n xfft nfft useOpenMP = (WELCH_FAILURE, xfft) := by
  unfold fftw
  simp [padZero_of_lt _ _ _ _ _ _ h]

/-- Function `cufft` fails, leaving `xfft` alone, when `n > nfft`. -/
theorem cufft_of_lt {K : Type} [Zero K] (env : LibEnv K) (x : List K) (n : Int)
    (xfft : List K) (nfft : Int) (h : nfft < n) :
    cufft env x n xfft nfft = (WELCH_FAILURE, xfft) := by
  unfold cufft
  simp [padZero_of_lt _ _ _ _ _ _ h]

/-- The conversion of `fftw.c` performs exactly the writes listed by
`convertWrites`, in that order. -/
theorem fftw_convert_eq_writes {K : Type} [Zero K] (c xfft : List K) (nfft : Int) :
    fftw_convert c xfft nfft
      = (convertWrites c nfft).foldl (fun a (w : Int × K) => wr a w.1 w.2) xfft := by
  unfold fftw_convert convertWrites
  have key := forLoop_rel
    (fun (a : List K) (t : List (Int × K)) =>
      a = t.foldl (fun a (w : Int × K) => wr a w.1 w.2) xfft)
    1 (Int.tdiv (nfft - 1) 2 + 1)
    (fun i a => wr (wr a (2 * i - 1) (rd c (2 * i))) (2 * i) (rd c (2 * i + 1)))
    (fun i t => t ++ [(2 * i - 1, rd c (2 * i)), (2 * i, rd c (2 * i + 1))])
    (wr xfft 0 (rd c (2 * 0))) [((0 : Int), rd c (2 * 0))] (by simp)
    (by
      intro i a b _ _ hab
      simp only [List.foldl_append, List.foldl_cons, List.foldl_nil, hab])
  dsimp only at key ⊢
  split
  · rw [List.foldl_append, ← key]
    rfl
  · exact key

/-- The indices written by the conversion are 0, 1, ..., `nfft - 1`, each once
and in increasing order. -/
theorem convertWrites_indices {K : Type} [Zero K] (c : List K) (nfft : Int) (hn : 0 < nfft) :
    (convertWrites c nfft).map Prod.fst
      = (List.range nfft.toNat).map (fun k : Nat => (k : Int)) := by
  unfold convertWrites
  have key := forLoop_invariant
    (fun i (t : List (Int × K)) =>
      t.map Prod.fst = (List.range (2 * i - 1).toNat).map (fun k : Nat => (k : Int)))
    1 (Int.tdiv (nfft - 1) 2 + 1)
    (fun i t => t ++ [(2 * i - 1, rd c (2 * i)), (2 * i, rd c (2 * i + 1))])
    [((0 : Int), rd c (2 * 0))]
    (by rw [Int.tdiv_eq_ediv (by omega) (by omega)]; omega)
    (by simp [List.range_succ])
    (by
      intro i t h1 _ ht
      have e : (2 * (i + 1) - 1).toNat = (2 * i - 1).toNat + 1 + 1 := by omega
      have e1 : (((2 * i - 1).toNat : Nat) : Int) = 2 * i - 1 := by omega
      have e2 : (((2 * i - 1).toNat + 1 : Nat) : Int) = 2 * i := by omega
      show (t ++ [(2 * i - 1, rd c (2 * i)), (2 * i, rd c (2 * i + 1))]).map Prod.fst = _
      rw [e, List.range_succ, List.range_succ, List.map_append, ht]
      simp only [List.map_append, List.map_cons, List.map_nil, List.append_assoc,
        List.cons_append, List.nil_append, e1, e2])
  dsimp only at key ⊢
  rw [Int.tmod_eq_emod (by omega) (by omega)]
  rw [Int.tdiv_eq_ediv (by omega) (by omega)] at key ⊢
  split
  · rename_i he
    have e : nfft.toNat = (2 * ((nfft - 1) / 2 + 1) - 1).toNat + 1 := by omega
    have e1 : (((2 * ((nfft - 1) / 2 + 1) - 1).toNat : Nat) : Int) = nfft - 1 := by omega
    rw [List.map_append, key, e, List.range_succ]
    simp only [List.map_append, List.map_cons, List.map_nil, e1]
  · rename_i ho
    have e : nfft.toNat = (2 * ((nfft - 1) / 2 + 1) - 1).toNat := by omega
    rw [key, e]

/-- The packed layout the conversion of `fftw.c` leaves in `xfft`. -/
theorem fftw_convert_layout {K : Type} [Zero K] (c xfft : List K) (nfft : Int) (hn : 0 < nfft)
    (hlen : xfft.length = nfft.toNat) :
    (fftw_convert c xfft nfft).length = nfft.toNat ∧
    rd (fftw_convert c xfft nfft) 0 = rd c (2 * 0) ∧
    (∀ i : Int, 1 ≤ i → i ≤ (nfft - 1) / 2 →
      rd (fftw_convert c xfft nfft) (2 * i - 1) = rd c (2 * i) ∧
      rd (fftw_convert c xfft nfft) (2 * i) = rd c (2 * i + 1)) ∧
    (nfft % 2 = 0 → rd (fftw_convert c xfft nfft) (nfft - 1) = rd c (2 * (nfft / 2))) := by
  have key := forLoop_invariant
    (fun i (a : List K) => a.length = nfft.toNat ∧ rd a 0 = rd c (2 * 0) ∧
      ∀ j : Int, 1 ≤ j → j < i →
        rd a (2 * j - 1) = rd c (2 * j) ∧ rd a (2 * j) = rd c (2 * j + 1))
    1 ((nfft - 1) / 2 + 1)
    (fun i a => wr (wr a (2 * i - 1) (rd c (2 * i))) (2 * i) (rd c (2 * i + 1)))
    (wr xfft 0 (rd c (2 * 0))) (by omega)
    ⟨by rw [wr_length, hlen], by rw [rd_wr, if_pos ⟨rfl, le_refl 0, by omega⟩],
      fun j h1 h2 => absurd h2 (by omega)⟩
    (by
      intro i a h1 h2 ⟨hl, ha0, ha⟩
      have hl1 : (wr a (2 * i - 1) (rd c (2 * i))).length = nfft.toNat := by
        rw [wr_length, hl]
      refine ⟨by rw [wr_length, hl1], ?_, ?_⟩
      · show rd (wr (wr a (2 * i - 1) (rd c (2 * i))) (2 * i) (rd c (2 * i + 1))) 0 = _
        rw [rd_wr, if_neg (by omega), rd_wr, if_neg (by omega)]
        exact ha0
      · intro j hj1 hj2
        show rd (wr (wr a (2 * i - 1) (rd c (2 * i))) (2 * i) (rd c (2 * i + 1))) (2 * j - 1) = _
          ∧ rd (wr (wr a (2 * i - 1) (rd c (2 * i))) (2 * i) (rd c (2 * i + 1))) (2 * j) = _
        by_cases hji : j = i
        · subst hji
          constructor
          · rw [rd_wr, if_neg (by omega), rd_wr, if_pos ⟨rfl, by omega, by omega⟩]
          · rw [rd_wr, if_pos ⟨rfl, by omega, by omega⟩]
        · have hlt : j < i := by omega
          constructor
          · rw [rd_wr, if_neg (by omega), rd_wr, if_neg (by omega)]
            exact (ha j hj1 hlt).1
          · rw [rd_wr, if_neg (by omega), rd_wr, if_neg (by omega)]
            exact (ha j hj1 hlt).2)
  obtain ⟨kl, k0, kj⟩ := key
  unfold fftw_convert
  dsimp only
  rw [Int.tmod_eq_emod (by omega) (by omega), Int.tdiv_eq_ediv (by omega) (by omega),
    Int.tdiv_eq_ediv (by omega) (by omega)]
  split
  · rename_i he
    refine ⟨by rw [wr_length, kl], ?_, ?_, ?_⟩
    · rw [rd_wr, if_neg (by omega)]
      exact k0
    · intro i h1 h2
      constructor
      · rw [rd_wr, if_neg (by omega)]
        exact (kj i h1 (by omega)).1
      · rw [rd_wr, if_neg (by omega)]
        exact (kj i h1 (by omega)).2
    · intro _
      rw [rd_wr, if_pos ⟨rfl, by omega, by omega⟩]
  · rename_i ho
    exact ⟨kl, k0, fun i h1 h2 => kj i h1 (by omega), fun he => absurd he ho⟩

/-- After the `cudaMemcpy` of `count` doubles, cell `count` of the destination
still holds what it held before. -/
theorem rd_cudaMemcpy_count {K : Type} [Zero K] (dst src : List K) (count : Int)
    (h0 : 0 ≤ count) (hsrc : count.toNat ≤ src.length) :
    rd (cudaMemcpy dst src count) count = rd dst count := by
  unfold cudaMemcpy rd
  rw [if_pos h0, if_pos h0]
  have hl : (src.take count.toNat).length = count.toNat := by
    rw [List.length_take]; omega
  rw [List.getD_eq_getElem?_getD, List.getD_eq_getElem?_getD,
    List.getElem?_append_right (by omega), hl, Nat.sub_self, List.getElem?_drop]
  simp

/-- For `nfft >= 2` a successful call of `cufft` stores in `xfft[nfft-1]` the
content of cell `nfft` of the freshly allocated host array, which the
device-to-host copy of `nfft` doubles does not reach. -/
theorem cufft_last_component_is_garbage {K : Type} [Zero K] (env : LibEnv K) (x : List K)
    (n : Int) (xfft : List K) (nfft : Int) (packed : List K) (hn : 2 ≤ nfft)
    (hx : xfft.length = nfft.toNat)
    (hdev : ∀ xPadded d, env.cufftExecD2Z nfft xPadded = some d → nfft.toNat ≤ d.length)
    (h : cufft env x n xfft nfft = (WELCH_SUCCESS, packed)) :
    rd packed (nfft - 1) = env.garbage nfft.toNat := by
  unfold cufft at h
  dsimp only at h
  repeat' split at h
  all_goals first
    | (cases h; done)
    | skip
  rename_i _ _ host hhost _ _ _ _ _ d hd _
  have hp : packed = fftw_convert (cudaMemcpy host d nfft) xfft nfft := by
    cases h
    rfl
  obtain ⟨-, -, hodd, heven⟩ := fftw_convert_layout (cudaMemcpy host d nfft) xfft nfft
    (by omega) hx
  have hcell : rd (cudaMemcpy host d nfft) nfft = env.garbage nfft.toNat := by
    rw [rd_cudaMemcpy_count host d nfft (by omega) (hdev _ d hd)]
    unfold malloc at hhost
    split at hhost
    · cases hhost
      have hlt : nfft.toNat < (2 * (Int.tdiv nfft 2 + 1)).toNat := by
        rw [Int.tdiv_eq_ediv (by omega) (by omega)]
        omega
      exact rd_map_range env.garbage _ nfft (by omega) hlt
    · cases hhost
  rw [hp]
  by_cases he : nfft % 2 = 0
  · rw [heven he]
    have e : 2 * (nfft / 2) = nfft := by omega
    rw [e, hcell]
  · have e1 : 2 * ((nfft - 1) / 2) = nfft - 1 := by omega
    have e2 : nfft - 1 + 1 = nfft := by omega
    have := (hodd ((nfft - 1) / 2) (by omega) (le_refl _)).2
    rw [e1, e2] at this
    rw [this, hcell]

/-- The provider `fftw` of the source succeeds on `n <= nfft` samples when its
two allocations are granted. -/
theorem fftw_succeeds {K : Type} [Zero K] (env : LibEnv K) (x : List K) (n : Int)
    (xfft : List K) (nfft useOpenMP : Int) (hx : x.length = n.toNat) (h0 : 0 ≤ n)
    (hle : n ≤ nfft) (hp : env.mallocPadded = true) (hc : env.mallocComplex = true) :
    (fftw env x n xfft nfft useOpenMP).1 = WELCH_SUCCESS := by
  obtain ⟨buf, hpad, -⟩ := padZero_granted env.garbage x n none nfft hx h0 hle
  unfold fftw
  rw [hp, hpad, hc]
  simp

/-! ## The steps of `welch` -/

/-- For positive `nfft` the truncating operations in `lenPxxInternal` are the
usual integer quotient and remainder. -/
theorem lenPxxInternal_of_pos (nfft : Int) (h : 0 < nfft) :
    lenPxxInternal nfft = if nfft % 2 = 0 then nfft / 2 + 1 else (nfft + 1) / 2 := by
  unfold lenPxxInternal
  rw [Int.tmod_eq_emod (by omega) (by omega), Int.tdiv_eq_ediv (by omega) (by omega),
    Int.tdiv_eq_ediv (by omega) (by omega)]

/-- Each of the three backend identifiers has a backend code. -/
theorem fftCallOf_recognized (fftType : String)
    (h : fftType = "fftw" ∨ fftType = "fftw_openmp" ∨ fftType = "cufft") :
    ∃ fftCall, fftCallOf fftType = some fftCall := by
  rcases h with h | h | h <;> subst h
  · exact ⟨FFTW, by decide⟩
  · exact ⟨FFTW_OPENMP, by decide⟩
  · exact ⟨CUFFT, by decide⟩

/-- The window loop turns a granted block of `lenSignal` cells into all ones. -/
theorem rectangularWindow_eq {K : Type} [Zero K] [One K] (granted : Bool) (garbage : Nat → K)
    (lenSignal : Int) (block : List K) (h : malloc granted garbage lenSignal = some block) :
    rectangularWindow block lenSignal = List.replicate lenSignal.toNat 1 :=
  forLoop_fill 1 lenSignal block (malloc_length _ _ _ _ h)

/-- With the all-ones window the squared norm is `lenSegment`, so the scale is
`1 / (samplingFrequency * lenSegment)`. -/
theorem computeScale_rectangular {K : Type} [LinearOrderedField K] (samplingFrequency : K)
    (lenSignal lenSegment : Int) (h0 : 0 ≤ lenSegment) (hle : lenSegment ≤ lenSignal) :
    computeScale samplingFrequency (List.replicate lenSignal.toNat 1) lenSegment
      = 1 / (samplingFrequency * (lenSegment : K)) := by
  unfold computeScale
  have key := forLoop_invariant (fun i (acc : K) => acc = (i : K)) 0 lenSegment
    (fun i acc => acc + rd (List.replicate lenSignal.toNat (1 : K)) i
      * rd (List.replicate lenSignal.toNat (1 : K)) i) 0 h0 (by simp)
    (by
      intro i acc hi1 hi2 hacc
      show acc + rd (List.replicate lenSignal.toNat (1 : K)) i
        * rd (List.replicate lenSignal.toNat (1 : K)) i = ((i + 1 : Int) : K)
      rw [rd_replicate_of_lt _ _ _ hi1 (by omega), hacc]
      push_cast
      ring)
  simp only at key
  rw [key]

/-- The accumulation step keeps the length of the accumulator. -/
theorem accumulate_length {K : Type} [Zero K] [Add K] [Mul K]
    (signalfft : List K) (nfft L : Int) (P : List K) :
    (accumulate signalfft nfft L P).length = P.length := by
  unfold accumulate
  rw [forLoop_length]
  · simp [wr_length]
  · intro i Q
    split <;> simp [wr_length]

/-- A property of the accumulator cells that survives the addition of one or of
two squares of provider outputs survives the accumulation step. -/
theorem accumulate_pointwise {K : Type} [Zero K] [Add K] [Mul K] (Q : K → Prop)
    (signalfft : List K) (nfft L : Int) (P : List K)
    (h1 : ∀ p k, Q p → Q (p + rd signalfft k * rd signalfft k))
    (h2 : ∀ p k l, Q p →
      Q (p + (rd signalfft k * rd signalfft k + rd signalfft l * rd signalfft l)))
    (hP : ∀ j, Q (rd P j)) : ∀ j, Q (rd (accumulate signalfft nfft L P) j) := by
  unfold accumulate
  apply forLoop_pointwise Q
  · intro i P' hP'
    split
    · exact rd_wr_pred Q _ _ _ hP' (h1 _ _ (hP' _))
    · exact rd_wr_pred Q _ _ _ hP' (h2 _ _ _ (hP' _))
  · exact rd_wr_pred Q _ _ _ hP (h1 _ _ (hP _))

/-- The scaling step keeps the length of the accumulator. -/
theorem scalePxx_length {K : Type} [LinearOrderedField K]
    (scale : K) (numSegment L : Int) (P : List K) :
    (scalePxx scale numSegment L P).length = P.length := by
  unfold scalePxx
  rw [forLoop_length]
  intro i Q
  split <;> simp [wr_length]

/-- A property of the accumulator cells that survives multiplication by either
scaling factor survives the scaling step. -/
theorem scalePxx_pointwise {K : Type} [LinearOrderedField K] (Q : K → Prop)
    (scale : K) (numSegment L : Int) (P : List K)
    (h1 : ∀ p, Q p → Q (p * (scale / (numSegment : K))))
    (h2 : ∀ p, Q p → Q (p * (scale * 2 / (numSegment : K))))
    (hP : ∀ j, Q (rd P j)) : ∀ j, Q (rd (scalePxx scale numSegment L P) j) := by
  unfold scalePxx
  apply forLoop_pointwise Q
  · intro i P' hP'
    split
    · exact rd_wr_pred Q _ _ _ hP' (h1 _ (hP' _))
    · exact rd_wr_pred Q _ _ _ hP' (h2 _ (hP' _))
  · exact hP

/-- What the scaling step of `welch` does: cells 0 and `lenPxxInternal - 1` are
multiplied by `scale / numSegment`, every cell between them by
`scale * 2 / numSegment`, whatever the parity of `nfft`. -/
theorem scalePxx_spec {K : Type} [LinearOrderedField K] (scale : K) (numSegment L : Int)
    (P : List K) (hlen : P.length = L.toNat) (j : Int) (h0 : 0 ≤ j) (h1 : j < L) :
    rd (scalePxx scale numSegment L P) j =
      if j = 0 ∨ j = L - 1 then rd P j * (scale / (numSegment : K))
      else rd P j * (scale * 2 / (numSegment : K)) := by
  have hbody : (fun (i : Int) (P : List K) =>
      if i = 0 ∨ i = L - 1 then wr P i (rd P i * (scale / (numSegment : K)))
      else wr P i (rd P i * (scale * 2 / (numSegment : K))))
      = fun i P => wr P i ((fun (i : Int) (p : K) =>
          if i = 0 ∨ i = L - 1 then p * (scale / (numSegment : K))
          else p * (scale * 2 / (numSegment : K))) i (rd P i)) := by
    funext i P
    by_cases hc : i = 0 ∨ i = L - 1
    · simp only [if_pos hc]
    · simp only [if_neg hc]
  unfold scalePxx
  rw [hbody]
  exact (forLoop_update_each (fun (i : Int) (p : K) =>
    if i = 0 ∨ i = L - 1 then p * (scale / (numSegment : K))
    else p * (scale * 2 / (numSegment : K))) L P hlen).2 j h0 h1

/-- The scaling step determines its divisor: when some cell of the accumulator
is not zero and the scale is not zero, two divisors that give the same scaled
array are equal, provided one of them is not zero. -/
theorem scalePxx_divisor_unique {K : Type} [LinearOrderedField K] (scale : K)
    (d n L : Int) (acc : List K) (hlen : acc.length = L.toNat) (hs : scale ≠ 0) (hn : n ≠ 0)
    (j : Int) (h0 : 0 ≤ j) (h1 : j < L) (hj : rd acc j ≠ 0)
    (h : scalePxx scale d L acc = scalePxx scale n L acc) : d = n := by
  have hrd := congrArg (fun P => rd P j) h
  simp only at hrd
  rw [scalePxx_spec scale d L acc hlen j h0 h1, scalePxx_spec scale n L acc hlen j h0 h1] at hrd
  have hnK : (n : K) ≠ 0 := by exact_mod_cast hn
  have key : ∀ c : K, c ≠ 0 → rd acc j * (c / (d : K)) = rd acc j * (c / (n : K)) → d = n := by
    intro c hc he
    have h2 := mul_left_cancel₀ hj he
    rw [div_eq_mul_inv, div_eq_mul_inv] at h2
    have h3 := inv_injective (mul_left_cancel₀ hc h2)
    exact_mod_cast h3
  split at hrd
  · exact key scale hs hrd
  · exact key (scale * 2) (mul_ne_zero hs two_ne_zero) hrd

/-- After an iteration whose provider call did not fail the accumulator is the
old one with one spectrum accumulated. -/
theorem segmentBody_PxxInternal {K : Type} [Zero K] [Add K] [Mul K] (B : Backends K)
    (signal window : List K) (lenSegment fftCall nfft L : Int) (i : Int) (s : SegmentState K)
    (h : (segmentBody B signal window lenSegment fftCall nfft L i s).1 ≠ WELCH_FAILURE) :
    ∃ signalfft, (segmentBody B signal window lenSegment fftCall nfft L i s).2.PxxInternal
      = accumulate signalfft nfft L s.PxxInternal := by
  unfold segmentBody at h ⊢
  dsimp only at h ⊢
  split_ifs at h ⊢ <;> first
    | exact absurd rfl h
    | exact ⟨_, rfl⟩

/-- A property of the local arrays that every iteration with a successful
provider call preserves holds when the segment loop completes. -/
theorem segmentLoop_invariant {K : Type} [Zero K] [Add K] [Mul K] (B : Backends K)
    (signal window : List K) (lenSignal lenSegment lenOverlap fftCall nfft L : Int)
    (I : SegmentState K → Prop)
    (hstep : ∀ i s, I s →
      (segmentBody B signal window lenSegment fftCall nfft L i s).1 ≠ WELCH_FAILURE →
      I (segmentBody B signal window lenSegment fftCall nfft L i s).2) :
    ∀ (fuel : Nat) (i : Int) (s s' : SegmentState K), I s →
      segmentLoop B signal window lenSignal lenSegment lenOverlap fftCall nfft L fuel i s
        = SegmentExit.completed s' → I s' := by
  intro fuel
  induction fuel with
  | zero => intro i s s' _ h; simp [segmentLoop] at h
  | succ fuel ih =>
    intro i s s' hI h
    rw [segmentLoop] at h
    split at h
    · dsimp only at h
      split at h
      · cases h
      · rename_i hne
        exact ih _ _ _ (hstep i s hI hne) h
    · cases h
      exact hI

/-- When the stride is positive and every iteration's provider call succeeds
and preserves `I`, the segment loop completes within the given fuel. -/
theorem segmentLoop_completes {K : Type} [Zero K] [Add K] [Mul K] (B : Backends K)
    (signal window : List K) (lenSignal lenSegment lenOverlap fftCall nfft L : Int)
    (I : SegmentState K → Prop) (hstride : 0 < lenSegment - lenOverlap)
    (hstep : ∀ i s, I s →
      (segmentBody B signal window lenSegment fftCall nfft L i s).1 ≠ WELCH_FAILURE ∧
      I (segmentBody B signal window lenSegment fftCall nfft L i s).2) :
    ∀ (fuel : Nat) (i : Int) (s : SegmentState K), I s →
      lenSignal - lenSegment - i + 1 < fuel → 0 < fuel →
      ∃ s', segmentLoop B signal window lenSignal lenSegment lenOverlap fftCall nfft L fuel i s
        = SegmentExit.completed s' ∧ I s' := by
  intro fuel
  induction fuel with
  | zero => intro i s _ _ h; omega
  | succ fuel ih =>
    intro i s hI h1 _
    rw [segmentLoop]
    by_cases hc : i + lenSegment ≤ lenSignal
    · rw [if_pos hc]
      dsimp only
      rw [if_neg (hstep i s hI).1]
      exact ih _ _ (hstep i s hI).2 (by push_cast at h1; omega) (by push_cast at h1; omega)
    · rw [if_neg hc]
      exact ⟨s, rfl, hI⟩

/-- What the step "get frequencies" of `welch` stores in a block of
`lenPxxInternal` cells. -/
theorem getFrequencies_spec {K : Type} [LinearOrderedField K] (samplingFrequency : K)
    (nfft L : Int) (block : List K) (hlen : block.length = L.toNat) :
    (getFrequencies samplingFrequency nfft L block).length = L.toNat ∧
    ∀ i : Int, 0 ≤ i → i < L →
      rd (getFrequencies samplingFrequency nfft L block) i
        = (i : K) * samplingFrequency / (nfft : K) :=
  forLoop_update_each (fun (i : Int) (_ : K) => (i : K) * samplingFrequency / (nfft : K))
    L block hlen

/-- The frequency axis computed for a positive sampling frequency and a
positive `nfft` starts at zero, increases strictly, stays at or below half the
sampling frequency, and ends at exactly half of it when `nfft` is even and
strictly below it when `nfft` is odd. -/
theorem getFrequencies_axis {K : Type} [LinearOrderedField K] (samplingFrequency : K)
    (nfft : Int) (block : List K) (hlen : block.length = (lenPxxInternal nfft).toNat)
    (hf : 0 < samplingFrequency) (hn : 0 < nfft) :
    rd (getFrequencies samplingFrequency nfft (lenPxxInternal nfft) block) 0 = 0 ∧
    (∀ i j : Int, 0 ≤ i → i < j → j < lenPxxInternal nfft →
      rd (getFrequencies samplingFrequency nfft (lenPxxInternal nfft) block) i
        < rd (getFrequencies samplingFrequency nfft (lenPxxInternal nfft) block) j) ∧
    (∀ i : Int, 0 ≤ i → i < lenPxxInternal nfft →
      rd (getFrequencies samplingFrequency nfft (lenPxxInternal nfft) block) i
        ≤ samplingFrequency / 2) ∧
    (nfft % 2 = 0 →
      rd (getFrequencies samplingFrequency nfft (lenPxxInternal nfft) block)
        (lenPxxInternal nfft - 1) = samplingFrequency / 2) ∧
    (nfft % 2 = 1 →
      rd (getFrequencies samplingFrequency nfft (lenPxxInternal nfft) block)
        (lenPxxInternal nfft - 1) < samplingFrequency / 2) := by
  obtain ⟨-, hrd⟩ := getFrequencies_spec samplingFrequency nfft (lenPxxInternal nfft) block hlen
  have hL := lenPxxInternal_of_pos nfft hn
  have hnK : (0 : K) < (nfft : K) := by exact_mod_cast hn
  have hLpos : 0 < lenPxxInternal nfft := by
    rw [hL]; split <;> omega
  have hLle : 2 * (lenPxxInternal nfft - 1) ≤ nfft := by
    rw [hL]; split <;> omega
  refine ⟨?_, ?_, ?_, ?_, ?_⟩
  · rw [hrd 0 le_rfl hLpos]
    simp
  · intro i j hi hij hj
    rw [hrd i hi (by omega), hrd j (by omega) hj]
    have hijK : (i : K) < (j : K) := by exact_mod_cast hij
    exact div_lt_div_of_pos_right (mul_lt_mul_of_pos_right hijK hf) hnK
  · intro i hi hiL
    rw [hrd i hi hiL, div_le_div_iff₀ hnK (by norm_num : (0 : K) < 2)]
    have h2 : (2 : K) * (i : K) ≤ (nfft : K) := by exact_mod_cast (by omega : 2 * i ≤ nfft)
    nlinarith
  · intro he
    rw [hrd _ (by omega) (by omega), div_eq_div_iff hnK.ne' (by norm_num : (2 : K) ≠ 0)]
    have h2 : 2 * (lenPxxInternal nfft - 1) = nfft := by
      rw [hL, if_pos he]; omega
    have h2K : (2 : K) * ((lenPxxInternal nfft - 1 : Int) : K) = (nfft : K) := by
      exact_mod_cast h2
    rw [← h2K]; ring
  · intro ho
    rw [hrd _ (by omega) (by omega), div_lt_div_iff₀ hnK (by norm_num : (0 : K) < 2)]
    have h2 : 2 * (lenPxxInternal nfft - 1) < nfft := by
      rw [hL, if_neg (by omega)]; omega
    have h2K : (2 : K) * ((lenPxxInternal nfft - 1 : Int) : K) < (nfft : K) := by
      exact_mod_cast h2
    nlinarith

/-- The accumulation step adds to bin `j` the squared magnitude `binPower` of
the packed spectrum. -/
theorem accumulate_spec {K : Type} [LinearOrderedField K] (signalfft : List K)
    (nfft L : Int) (P : List K) (hn : 0 < nfft) (hlen : P.length = L.toNat) (j : Int)
    (h0 : 0 ≤ j) (h1 : j < L) :
    rd (accumulate signalfft nfft L P) j = rd P j + binPower signalfft nfft L j := by
  have hbody : (fun (j : Int) (P : List K) =>
      if Int.tmod nfft 2 = 0 ∧ j = L - 1 then
        wr P j (rd P j + rd signalfft (nfft - 1) * rd signalfft (nfft - 1))
      else
        wr P j (rd P j + (rd signalfft (2 * j - 1) * rd signalfft (2 * j - 1)
                          + rd signalfft (2 * j) * rd signalfft (2 * j))))
      = fun j P => wr P j ((fun (j : Int) (p : K) =>
          if Int.tmod nfft 2 = 0 ∧ j = L - 1 then
            p + rd signalfft (nfft - 1) * rd signalfft (nfft - 1)
          else p + (rd signalfft (2 * j - 1) * rd signalfft (2 * j - 1)
                          + rd signalfft (2 * j) * rd signalfft (2 * j))) j (rd P j)) := by
    funext j P
    by_cases hc : Int.tmod nfft 2 = 0 ∧ j = L - 1
    · simp only [if_pos hc]
    · simp only [if_neg hc]
  have hlen1 : (wr P 0 (rd P 0 + rd signalfft 0 * rd signalfft 0)).length = L.toNat := by
    rw [wr_length, hlen]
  unfold accumulate
  dsimp only
  rw [hbody]
  obtain ⟨-, hupd, hkeep⟩ := forLoop_update_from (fun (j : Int) (p : K) =>
      if Int.tmod nfft 2 = 0 ∧ j = L - 1 then
        p + rd signalfft (nfft - 1) * rd signalfft (nfft - 1)
      else p + (rd signalfft (2 * j - 1) * rd signalfft (2 * j - 1)
                      + rd signalfft (2 * j) * rd signalfft (2 * j)))
    1 L (wr P 0 (rd P 0 + rd signalfft 0 * rd signalfft 0)) (by omega) hlen1
  unfold binPower
  rw [← Int.tmod_eq_emod (by omega) (by omega)]
  by_cases hj : j = 0
  · subst hj
    rw [hkeep 0 (by omega), rd_wr, if_pos ⟨rfl, le_refl 0, by omega⟩, if_pos rfl]
  · have hrd : rd (wr P 0 (rd P 0 + rd signalfft 0 * rd signalfft 0)) j = rd P j := by
      rw [rd_wr, if_neg (by omega)]
    rw [hupd j (by omega) h1, hrd]
    simp only [if_neg hj]
    split <;> rfl

/-- The squared magnitude `binPower` is the sum of the squares of the
components listed by `binComponents`. -/
theorem binPower_eq_sum {K : Type} [LinearOrderedField K] (signalfft : List K)
    (nfft L j : Int) (hn : 0 < nfft) :
    binPower signalfft nfft L j
      = ((binComponents nfft L j).map (fun k => rd signalfft k * rd signalfft k)).sum := by
  unfold binPower binComponents
  rw [Int.tmod_eq_emod (by omega) (by omega)]
  split
  · simp
  · split <;> simp

/-- Below the Nyquist bin, the components used for the bins 0, ..., `m - 1`
are 0, 1, ..., `2 m - 2`, in this order. -/
theorem binComponents_initial (nfft L : Int) (m : Nat) (hm : 1 ≤ m)
    (hny : ∀ j : Nat, j < m → ¬ (Int.tmod nfft 2 = 0 ∧ (j : Int) = L - 1)) :
    (List.range m).flatMap (fun j : Nat => binComponents nfft L (j : Int))
      = (List.range (2 * m - 1)).map (fun k : Nat => (k : Int)) := by
  induction m with
  | zero => omega
  | succ m ih =>
    by_cases h1 : m = 0
    · subst h1
      simp [binComponents, List.range_succ]
    · have e : 2 * (m + 1) - 1 = (2 * m - 1) + 1 + 1 := by omega
      have e1 : (((2 * m - 1 : Nat)) : Int) = 2 * (m : Int) - 1 := by omega
      have e2 : (((2 * m - 1 + 1 : Nat)) : Int) = 2 * (m : Int) := by omega
      have hb : binComponents nfft L (m : Int) = [2 * (m : Int) - 1, 2 * (m : Int)] := by
        unfold binComponents
        rw [if_neg (by omega), if_neg (hny m (by omega))]
      rw [List.range_succ, List.flatMap_append, ih (by omega) (fun j hj => hny j (by omega)),
        List.flatMap_singleton, hb, e, List.range_succ, List.range_succ]
      simp only [List.map_append, List.map_cons, List.map_nil, List.append_assoc,
        List.cons_append, List.nil_append, e1, e2]

/-- One iteration of the segment loop, in terms of its three steps. -/
theorem segmentBody_eq {K : Type} [Zero K] [Add K] [Mul K] (B : Backends K)
    (signal window : List K) (lenSegment fftCall nfft L : Int) (i : Int) (s : SegmentState K) :
    segmentBody B signal window lenSegment fftCall nfft L i s =
      if (providerResult B fftCall s.calls.length
            (windowSegment signal window lenSegment i s.windowedSignal) lenSegment s.signalfft
            nfft).1 = WELCH_FAILURE then
        (WELCH_FAILURE,
          ⟨windowSegment signal window lenSegment i s.windowedSignal,
            (providerResult B fftCall s.calls.length
              (windowSegment signal window lenSegment i s.windowedSignal) lenSegment s.signalfft
              nfft).2,
            s.PxxInternal,
            s.calls ++ [⟨i, windowSegment signal window lenSegment i s.windowedSignal,
              lenSegment, nfft⟩]⟩)
      else
        (WELCH_SUCCESS,
          ⟨windowSegment signal window lenSegment i s.windowedSignal,
            (providerResult B fftCall s.calls.length
              (windowSegment signal window lenSegment i s.windowedSignal) lenSegment s.signalfft
              nfft).2,
            accumulate (providerResult B fftCall s.calls.length
              (windowSegment signal window lenSegment i s.windowedSignal) lenSegment s.signalfft
              nfft).2 nfft L s.PxxInternal,
            s.calls ++ [⟨i, windowSegment signal window lenSegment i s.windowedSignal,
              lenSegment, nfft⟩]⟩) := rfl

/-- The windowed segment at offset `i` holds `signal[i+m] * window[m]`. -/
theorem windowSegment_spec {K : Type} [Zero K] [Mul K] (signal window : List K)
    (lenSegment i : Int) (block : List K) (hlen : block.length = lenSegment.toNat) :
    (windowSegment signal window lenSegment i block).length = lenSegment.toNat ∧
    ∀ m : Int, 0 ≤ m → m < lenSegment →
      rd (windowSegment signal window lenSegment i block) m
        = rd signal (i + m) * rd window m :=
  forLoop_update_each (fun (j : Int) (_ : K) => rd signal (i + j) * rd window j)
    lenSegment block hlen

/-- A status that is not failure is success. -/
theorem status_eq_success (st : welchStatus_t) (h : st ≠ WELCH_FAILURE) :
    st = WELCH_SUCCESS := by
  cases st
  · rfl
  · exact absurd rfl h

/-- Exit rule for the segment loop: a property of offset and local arrays that
every iteration with a successful provider call carries to the next offset
holds, at an offset past the last whole segment, when the loop completes. -/
theorem segmentLoop_exit {K : Type} [Zero K] [Add K] [Mul K] (B : Backends K)
    (signal window : List K) (lenSignal lenSegment lenOverlap fftCall nfft L : Int)
    (I : Int → SegmentState K → Prop)
    (hstep : ∀ i s, I i s → i + lenSegment ≤ lenSignal →
      (segmentBody B signal window lenSegment fftCall nfft L i s).1 ≠ WELCH_FAILURE →
      I (i + (lenSegment - lenOverlap))
        (segmentBody B signal window lenSegment fftCall nfft L i s).2) :
    ∀ (fuel : Nat) (i : Int) (s s' : SegmentState K), I i s →
      segmentLoop B signal window lenSignal lenSegment lenOverlap fftCall nfft L fuel i s
        = SegmentExit.completed s' →
      ∃ i', I i' s' ∧ ¬ (i' + lenSegment ≤ lenSignal) := by
  intro fuel
  induction fuel with
  | zero => intro i s s' _ h; simp [segmentLoop] at h
  | succ fuel ih =>
    intro i s s' hI h
    rw [segmentLoop] at h
    split at h
    · rename_i hc
      dsimp only at h
      split at h
      · cases h
      · rename_i hne
        exact ih _ _ _ (hstep i s hI hc hne) h
    · rename_i hc
      cases h
      exact ⟨i, hI, hc⟩

/-- The provider invocations of a completed segment loop: the offsets are the
multiples `k * (lenSegment - lenOverlap)` for `k` below the quotient
`(lenSignal - lenOverlap) / (lenSegment - lenOverlap)`, in increasing order,
and every invocation is made on a whole windowed segment of the signal. -/
theorem segmentLoop_calls {K : Type} [Zero K] [Add K] [Mul K] (B : Backends K)
    (signal window : List K) (lenSignal lenSegment lenOverlap fftCall nfft L : Int)
    (hle : lenSegment ≤ lenSignal) (hlt : lenOverlap < lenSegment)
    (fuel : Nat) (s0 s : SegmentState K) (hcalls : s0.calls = [])
    (hws : s0.windowedSignal.length = lenSegment.toNat)
    (h : segmentLoop B signal window lenSignal lenSegment lenOverlap fftCall nfft L fuel 0 s0
      = SegmentExit.completed s) :
    s.calls.map (fun c => c.offset)
      = (List.range ((lenSignal - lenOverlap) / (lenSegment - lenOverlap)).toNat).map
          (fun k : Nat => (k : Int) * (lenSegment - lenOverlap)) ∧
    ∀ c ∈ s.calls, 0 ≤ c.offset ∧ c.offset + lenSegment ≤ lenSignal ∧ c.n = lenSegment ∧
      c.nfft = nfft ∧ c.x.length = lenSegment.toNat ∧
      ∀ m : Int, 0 ≤ m → m < lenSegment → rd c.x m = rd signal (c.offset + m) * rd window m := by
  obtain ⟨i', ⟨hi, hbound, hoff, hws', hall⟩, hstop⟩ := segmentLoop_exit B signal window lenSignal
    lenSegment lenOverlap fftCall nfft L
    (fun i s => i = (s.calls.length : Int) * (lenSegment - lenOverlap) ∧
      (s.calls.length : Int) * (lenSegment - lenOverlap) ≤ lenSignal - lenOverlap ∧
      s.calls.map (fun c => c.offset)
        = (List.range s.calls.length).map (fun k : Nat => (k : Int) * (lenSegment - lenOverlap)) ∧
      s.windowedSignal.length = lenSegment.toNat ∧
      ∀ c ∈ s.calls, 0 ≤ c.offset ∧ c.offset + lenSegment ≤ lenSignal ∧ c.n = lenSegment ∧
        c.nfft = nfft ∧ c.x.length = lenSegment.toNat ∧
        ∀ m : Int, 0 ≤ m → m < lenSegment →
          rd c.x m = rd signal (c.offset + m) * rd window m)
    (by
      intro i st ⟨hi, hbound, hoff, hws', hall⟩ hc hne
      obtain ⟨w1, w2⟩ := windowSegment_spec signal window lenSegment i st.windowedSignal hws'
      rw [segmentBody_eq] at hne ⊢
      split at hne
      · exact absurd rfl hne
      · rename_i hnf
        rw [if_neg hnf]
        dsimp only
        have hpos : 0 ≤ (st.calls.length : Int) * (lenSegment - lenOverlap) :=
          mul_nonneg (by omega) (by omega)
        have e : ((st.calls.length + 1 : Nat) : Int) * (lenSegment - lenOverlap)
            = (st.calls.length : Int) * (lenSegment - lenOverlap) + (lenSegment - lenOverlap) := by
          push_cast; ring
        refine ⟨?_, ?_, ?_, w1, ?_⟩
        · rw [List.length_append, List.length_singleton, e, hi]
        · rw [List.length_append, List.length_singleton, e]
          omega
        · rw [List.length_append, List.length_singleton, List.range_succ, List.map_append,
            List.map_append, hoff]
          simp only [List.map_cons, List.map_nil, hi]
        · intro c hcm
          rcases List.mem_append.mp hcm with hcm | hcm
          · exact hall c hcm
          · rw [List.mem_singleton] at hcm
            subst hcm
            exact ⟨by dsimp only; omega, hc, rfl, rfl, w1, w2⟩)
    fuel 0 s0 s
    ⟨by rw [hcalls]; simp, by rw [hcalls]; simp; omega, by rw [hcalls]; simp, hws,
      by rw [hcalls]; simp⟩
    h
  refine ⟨?_, hall⟩
  have hcount : ((lenSignal - lenOverlap) / (lenSegment - lenOverlap)).toNat = s.calls.length := by
    have h1 : (s.calls.length : Int) ≤ (lenSignal - lenOverlap) / (lenSegment - lenOverlap) :=
      (Int.le_ediv_iff_mul_le (by omega)).mpr hbound
    have h2 : (lenSignal - lenOverlap) / (lenSegment - lenOverlap) < (s.calls.length : Int) + 1 := by
      rw [Int.ediv_lt_iff_lt_mul (by omega)]
      have e : ((s.calls.length : Int) + 1) * (lenSegment - lenOverlap)
          = (s.calls.length : Int) * (lenSegment - lenOverlap) + (lenSegment - lenOverlap) := by
        ring
      omega
    omega
  rw [hcount, hoff]

/-- With a positive stride the segment loop does not use up its fuel, whatever
the provider returns, as soon as the fuel exceeds the distance still to go. -/
theorem segmentLoop_terminates {K : Type} [Zero K] [Add K] [Mul K] (B : Backends K)
    (signal window : List K) (lenSignal lenSegment lenOverlap fftCall nfft L : Int)
    (hstride : 0 < lenSegment - lenOverlap) :
    ∀ (fuel : Nat) (i : Int) (s : SegmentState K),
      lenSignal - lenSegment - i + 1 < fuel → 0 < fuel →
      segmentLoop B signal window lenSignal lenSegment lenOverlap fftCall nfft L fuel i s
        ≠ SegmentExit.outOfFuel := by
  intro fuel
  induction fuel with
  | zero => intro i s _ h; omega
  | succ fuel ih =>
    intro i s h1 _
    rw [segmentLoop]
    split
    · rename_i hc
      dsimp only
      split
      · intro h; cases h
      · exact ih _ _ (by push_cast at h1; omega) (by push_cast at h1; omega)
    · intro h; cases h

/-- More fuel does not change the result of a segment loop that did not use up
its fuel. -/
theorem segmentLoop_fuel_succ {K : Type} [Zero K] [Add K] [Mul K] (B : Backends K)
    (signal window : List K) (lenSignal lenSegment lenOverlap fftCall nfft L : Int) :
    ∀ (fuel : Nat) (i : Int) (s : SegmentState K),
      segmentLoop B signal window lenSignal lenSegment lenOverlap fftCall nfft L fuel i s
        ≠ SegmentExit.outOfFuel →
      segmentLoop B signal window lenSignal lenSegment lenOverlap fftCall nfft L (fuel + 1) i s
        = segmentLoop B signal window lenSignal lenSegment lenOverlap fftCall nfft L fuel i s := by
  intro fuel
  induction fuel with
  | zero => intro i s h; exact absurd rfl h
  | succ fuel ih =>
    intro i s h
    rw [segmentLoop] at h
    conv_lhs => rw [segmentLoop]
    conv_rhs => rw [segmentLoop]
    split
    · rename_i hc
      rw [if_pos hc] at h
      dsimp only at h ⊢
      split
      · rfl
      · rename_i hne
        rw [if_neg hne] at h
        exact ih _ _ h
    · rfl

/-- Any larger amount of fuel gives the same result. -/
theorem segmentLoop_fuel_mono {K : Type} [Zero K] [Add K] [Mul K] (B : Backends K)
    (signal window : List K) (lenSignal lenSegment lenOverlap fftCall nfft L : Int)
    (fuel : Nat) (i : Int) (s : SegmentState K)
    (h : segmentLoop B signal window lenSignal lenSegment lenOverlap fftCall nfft L fuel i s
      ≠ SegmentExit.outOfFuel) (extra : Nat) :
    segmentLoop B signal window lenSignal lenSegment lenOverlap fftCall nfft L (fuel + extra) i s
      = segmentLoop B signal window lenSignal lenSegment lenOverlap fftCall nfft L fuel i s := by
  induction extra with
  | zero => rfl
  | succ extra ih =>
    rw [← Nat.add_assoc, segmentLoop_fuel_succ _ _ _ _ _ _ _ _ _ _ _ _ (by rw [ih]; exact h), ih]

/-- The accumulator of a completed segment loop started on zeros: there is one
packed spectrum per provider invocation, the one the provider returned, with
success, on that invocation's windowed segment, and every bin holds the sum of
the squared magnitudes `binPower` of these spectra. -/
theorem segmentLoop_accumulator {K : Type} [LinearOrderedField K] (B : Backends K)
    (signal window : List K) (lenSignal lenSegment lenOverlap fftCall nfft L : Int)
    (hn : 0 < nfft) (fuel : Nat) (i0 : Int) (windowedSignal signalfft : List K)
    (s : SegmentState K) (hws : windowedSignal.length = lenSegment.toNat)
    (h : segmentLoop B signal window lenSignal lenSegment lenOverlap fftCall nfft L fuel i0
      ⟨windowedSignal, signalfft, List.replicate L.toNat 0, []⟩ = SegmentExit.completed s) :
    ∃ spectra : List (List K),
      spectra.length = s.calls.length ∧
      s.PxxInternal.length = L.toNat ∧
      (∀ j : Int, 0 ≤ j → j < L →
        rd s.PxxInternal j = (spectra.map (fun f => binPower f nfft L j)).sum) ∧
      ∀ (k : Nat) (c : Invocation K) (f : List K),
        s.calls[k]? = some c → spectra[k]? = some f →
        (∃ xfft, providerResult B fftCall k c.x lenSegment xfft nfft = (WELCH_SUCCESS, f)) ∧
        ∀ m : Int, 0 ≤ m → m < lenSegment →
          rd c.x m = rd signal (c.offset + m) * rd window m := by
  have key := segmentLoop_invariant B signal window lenSignal lenSegment lenOverlap fftCall
    nfft L
    (fun s => s.windowedSignal.length = lenSegment.toNat ∧
      ∃ spectra : List (List K),
        spectra.length = s.calls.length ∧
        s.PxxInternal.length = L.toNat ∧
        (∀ j : Int, 0 ≤ j → j < L →
          rd s.PxxInternal j = (spectra.map (fun f => binPower f nfft L j)).sum) ∧
        ∀ (k : Nat) (c : Invocation K) (f : List K),
          s.calls[k]? = some c → spectra[k]? = some f →
          (∃ xfft, providerResult B fftCall k c.x lenSegment xfft nfft = (WELCH_SUCCESS, f)) ∧
          ∀ m : Int, 0 ≤ m → m < lenSegment →
            rd c.x m = rd signal (c.offset + m) * rd window m)
    (by
      intro i st ⟨hw, spectra, hlen, hPl, hsum, hcalls⟩ hne
      obtain ⟨w1, w2⟩ := windowSegment_spec signal window lenSegment i st.windowedSignal hw
      rw [segmentBody_eq] at hne ⊢
      split at hne
      · exact absurd rfl hne
      · rename_i hnf
        rw [if_neg hnf]
        dsimp only
        refine ⟨w1, spectra ++ [(providerResult B fftCall st.calls.length
          (windowSegment signal window lenSegment i st.windowedSignal) lenSegment st.signalfft
          nfft).2], ?_, ?_, ?_, ?_⟩
        · rw [List.length_append, List.length_append, hlen]
          rfl
        · rw [accumulate_length, hPl]
        · intro j hj0 hj1
          rw [accumulate_spec _ nfft L _ hn hPl j hj0 hj1, hsum j hj0 hj1, List.map_append,
            List.sum_append]
          simp
        · intro k c f hc hf
          by_cases hk : k < st.calls.length
          · rw [List.getElem?_append_left hk] at hc
            rw [List.getElem?_append_left (by omega)] at hf
            exact hcalls k c f hc hf
          · rw [List.getElem?_append_right (by omega)] at hc hf
            have hk0 : k - st.calls.length = 0 := by
              obtain ⟨hlt, -⟩ := List.getElem?_eq_some.mp hc
              rw [List.length_singleton] at hlt
              omega
            have hkeq : k = st.calls.length := by omega
            rw [hk0] at hc
            rw [hlen, hk0] at hf
            simp only [List.getElem?_cons_zero, Option.some.injEq] at hc hf
            subst hc
            subst hf
            subst hkeq
            exact ⟨⟨st.signalfft, Prod.ext (status_eq_success _ hnf) rfl⟩, w2⟩)
    fuel i0 ⟨windowedSignal, signalfft, List.replicate L.toNat 0, []⟩ s
    ⟨hws, [], rfl, by simp, fun j _ _ => by simp [rd_replicate],
      fun k c f hc _ => by simp at hc⟩
    h
  exact key.2

/-! ## Structure of a call of `welch` -/

/-- What a failure return made before any provider invocation looks like. -/
theorem failure_eq_returned {K : Type} (out : Outputs K) (live : List Buffer) (r : Returned K)
    (h : failure out live = Outcome.returned r) :
    r.status = WELCH_FAILURE ∧ r.out = out ∧ r.calls = [] := by
  unfold failure at h
  cases h
  exact ⟨rfl, rfl, rfl⟩

/-- A successful call passed every check, and its result is that of the
computation part run on the rectangular window. -/
theorem welch_success_inv {K : Type} [LinearOrderedField K] (env : WelchEnv K) (B : Backends K)
    (signal : List K) (out : Outputs K) (samplingFrequency : K)
    (lenSignal lenSegment lenOverlap : Int) (windowType fftType : String) (nfft : Int)
    (r : Returned K)
    (h : welch env B signal out samplingFrequency lenSignal lenSegment lenOverlap
      windowType fftType nfft = Outcome.returned r)
    (hs : r.status = WELCH_SUCCESS) :
    0 < samplingFrequency ∧ 0 < lenSignal ∧ 0 < lenSegment ∧ 0 ≤ lenOverlap ∧
    lenSegment ≤ lenSignal ∧ lenOverlap < lenSegment ∧
    (lenSignal - lenOverlap) % (lenSegment - lenOverlap) = 0 ∧
    windowType = "rectangular" ∧ 0 < nfft ∧
    ∃ block fftCall, malloc (env.granted Buffer.window) env.garbage lenSignal = some block ∧
      fftCallOf fftType = some fftCall ∧
      welchCompute env B signal out samplingFrequency lenSignal lenSegment lenOverlap
        (rectangularWindow block lenSignal) fftCall nfft = Outcome.returned r := by
  unfold welch at h
  have nf : ∀ live, failure out live ≠ Outcome.returned r := by
    intro live hf
    have := (failure_eq_returned out live r hf).1
    rw [hs] at this
    cases this
  repeat' split at h
  all_goals first
    | exact absurd h (nf _)
    | cases h
    | skip
  rename_i h1 h2 h3 h4 h5 h6 _ remainder hrem h7 h8 _ block hblock _ fftCall hcall h9
  obtain ⟨hne, hr⟩ := cmod_eq_some _ _ _ hrem
  push_neg at h1 h2 h3 h4 h5 h6 h7 h9
  have hlt : lenOverlap < lenSegment := by omega
  refine ⟨h1, h2, h3, h4, h5, hlt, ?_, h8, h9, block, fftCall, hblock, hcall, h⟩
  rw [← Int.tmod_eq_emod (by omega) (by omega), ← hr, h7]

/-- A call of the computation part that returns either fails and leaves the
caller's outputs alone, or completes the segment loop and publishes the scaled
accumulator, the frequency axis and `lenPxxInternal`. -/
theorem welchCompute_returned {K : Type} [LinearOrderedField K] (env : WelchEnv K)
    (B : Backends K) (signal : List K) (out : Outputs K) (samplingFrequency : K)
    (lenSignal lenSegment lenOverlap : Int) (window : List K) (fftCall nfft : Int)
    (r : Returned K)
    (h : welchCompute env B signal out samplingFrequency lenSignal lenSegment lenOverlap
      window fftCall nfft = Outcome.returned r) :
    (r.status = WELCH_FAILURE ∧ r.out = out) ∨
    (r.status = WELCH_SUCCESS ∧
      ∃ signalfft PxxBlock frequencyBlock windowedSignal s numSegment,
        malloc (env.granted Buffer.signalfft) env.garbage nfft = some signalfft ∧
        malloc (env.granted Buffer.PxxInternal) env.garbage (lenPxxInternal nfft)
          = some PxxBlock ∧
        malloc (env.granted Buffer.frequencyInternal) env.garbage (lenPxxInternal nfft)
          = some frequencyBlock ∧
        malloc (env.granted Buffer.windowedSignal) env.garbage lenSegment
          = some windowedSignal ∧
        segmentLoop B signal window lenSignal lenSegment lenOverlap fftCall nfft
          (lenPxxInternal nfft) (lenSignal.toNat + 1) 0
          ⟨windowedSignal, signalfft,
            forLoop 0 (lenPxxInternal nfft) (fun i P => wr P i 0) PxxBlock, []⟩
          = SegmentExit.completed s ∧
        cdiv (lenSignal - lenOverlap) (lenSegment - lenOverlap) = some numSegment ∧
        r.out = ⟨some (scalePxx (computeScale samplingFrequency window lenSegment) numSegment
                    (lenPxxInternal nfft) s.PxxInternal),
                 some (getFrequencies samplingFrequency nfft (lenPxxInternal nfft)
                    frequencyBlock),
                 lenPxxInternal nfft⟩ ∧
        r.calls = s.calls) := by
  unfold welchCompute at h
  repeat' split at h
  all_goals first
    | exact Or.inl ⟨(failure_eq_returned _ _ _ h).1, (failure_eq_returned _ _ _ h).2.1⟩
    | skip
  all_goals dsimp only at h
  all_goals split at h
  all_goals first
    | (cases h; exact Or.inl ⟨rfl, rfl⟩)
    | (cases h; exact Or.inr ⟨rfl, _, _, _, _, _, _, ‹_›, ‹_›, ‹_›, ‹_›, ‹_›, ‹_›, rfl, rfl⟩)
    | cases h

/-- On parameters that pass every check, with the window granted, `welch` is
its computation part run on the all-ones window. -/
theorem welch_of_accepted {K : Type} [LinearOrderedField K] (env : WelchEnv K) (B : Backends K)
    (signal : List K) (out : Outputs K) (samplingFrequency : K)
    (lenSignal lenSegment lenOverlap : Int) (windowType fftType : String) (fftCall nfft : Int)
    (hf : 0 < samplingFrequency) (hsig : 0 < lenSignal) (hseg : 0 < lenSegment)
    (hov : 0 ≤ lenOverlap) (hle : lenSegment ≤ lenSignal) (hlt : lenOverlap < lenSegment)
    (hmod : (lenSignal - lenOverlap) % (lenSegment - lenOverlap) = 0)
    (hw : windowType = "rectangular") (hc : fftCallOf fftType = some fftCall)
    (hn : 0 < nfft) (hg : env.granted Buffer.window = true) :
    welch env B signal out samplingFrequency lenSignal lenSegment lenOverlap
      windowType fftType nfft =
    welchCompute env B signal out samplingFrequency lenSignal lenSegment lenOverlap
      (List.replicate lenSignal.toNat 1) fftCall nfft := by
  have h1 : ¬ samplingFrequency ≤ 0 := not_le.mpr hf
  have h2 : ¬ lenSignal ≤ 0 := by omega
  have h3 : ¬ lenSegment ≤ 0 := by omega
  have h4 : ¬ lenOverlap < 0 := by omega
  have h5 : ¬ lenSignal < lenSegment := by omega
  have h6 : ¬ lenSegment < lenOverlap := by omega
  have h7 : ¬ nfft ≤ 0 := by omega
  have hcm : cmod (lenSignal - lenOverlap) (lenSegment - lenOverlap) = some 0 := by
    unfold cmod
    rw [if_neg (by omega), Int.tmod_eq_emod (by omega) (by omega), hmod]
  have hwin : rectangularWindow ((List.range lenSignal.toNat).map env.garbage) lenSignal
      = List.replicate lenSignal.toNat (1 : K) :=
    forLoop_fill 1 lenSignal _ (by simp)
  unfold welch
  rw [if_neg h1, if_neg h2, if_neg h3, if_neg h4, if_neg h5, if_neg h6, hcm]
  simp only [ne_eq, not_true_eq_false, if_false, if_pos hw, hg, malloc_granted, hc, if_neg h7,
    hwin]

/-- With every buffer granted, the computation part runs the segment loop on
fresh blocks and the zeroed accumulator. -/
theorem welchCompute_of_granted {K : Type} [LinearOrderedField K] (env : WelchEnv K)
    (B : Backends K) (signal : List K) (out : Outputs K) (samplingFrequency : K)
    (lenSignal lenSegment lenOverlap : Int) (window : List K) (fftCall nfft : Int)
    (hg : ∀ b, env.granted b = true) :
    welchCompute env B signal out samplingFrequency lenSignal lenSegment lenOverlap
      window fftCall nfft =
    match segmentLoop B signal window lenSignal lenSegment lenOverlap fftCall nfft
      (lenPxxInternal nfft) (lenSignal.toNat + 1) 0
      ⟨(List.range lenSegment.toNat).map env.garbage, (List.range nfft.toNat).map env.garbage,
        List.replicate (lenPxxInternal nfft).toNat 0, []⟩ with
    | SegmentExit.outOfFuel => Outcome.diverges
    | SegmentExit.providerFailed s => Outcome.returned ⟨WELCH_FAILURE, out, [], s.calls⟩
    | SegmentExit.completed s =>
      match cdiv (lenSignal - lenOverlap) (lenSegment - lenOverlap) with
      | none => Outcome.undefinedBehaviour
      | some numSegment =>
        Outcome.returned
          ⟨WELCH_SUCCESS,
            ⟨some (scalePxx (computeScale samplingFrequency window lenSegment) numSegment
                (lenPxxInternal nfft) s.PxxInternal),
             some (getFrequencies samplingFrequency nfft (lenPxxInternal nfft)
                ((List.range (lenPxxInternal nfft).toNat).map env.garbage)),
             lenPxxInternal nfft⟩,
            [Buffer.frequencyInternal, Buffer.PxxInternal], s.calls⟩ := by
  have hz : forLoop 0 (lenPxxInternal nfft) (fun i (P : List K) => wr P i 0)
      ((List.range (lenPxxInternal nfft).toNat).map env.garbage)
      = List.replicate (lenPxxInternal nfft).toNat 0 :=
    forLoop_fill 0 _ _ (by simp)
  unfold welchCompute
  simp only [hg, malloc_granted, hz]
  split <;> rfl

/-- The buffers still allocated when the computation part returns failure:
none, except that a refused frequency buffer leaves the accumulator behind. -/
theorem welchCompute_failure_live {K : Type} [LinearOrderedField K] (env : WelchEnv K)
    (B : Backends K) (signal : List K) (out : Outputs K) (samplingFrequency : K)
    (lenSignal lenSegment lenOverlap : Int) (window : List K) (fftCall nfft : Int)
    (r : Returned K)
    (h : welchCompute env B signal out samplingFrequency lenSignal lenSegment lenOverlap
      window fftCall nfft = Outcome.returned r)
    (hs : r.status = WELCH_FAILURE) :
    r.live = [] ∨
    (r.live = [Buffer.PxxInternal] ∧ env.granted Buffer.PxxInternal = true ∧
      env.granted Buffer.frequencyInternal = false) := by
  unfold welchCompute at h
  repeat' split at h
  all_goals dsimp only [failure] at h
  all_goals first
    | (cases h; left; rfl)
    | (cases h; right;
       exact ⟨rfl, malloc_eq_some _ _ _ _ ‹_›, malloc_eq_none _ _ _ ‹_›⟩)
    | skip
  all_goals split at h
  all_goals first
    | (cases h; left; rfl)
    | (cases h; cases hs)
    | cases h

/-- The buffers still allocated when `welch` returns failure: none, except
that a refused frequency buffer leaves the accumulator behind. -/
theorem welch_failure_live {K : Type} [LinearOrderedField K] (env : WelchEnv K)
    (B : Backends K) (signal : List K) (out : Outputs K) (samplingFrequency : K)
    (lenSignal lenSegment lenOverlap : Int) (windowType fftType : String) (nfft : Int)
    (r : Returned K)
    (h : welch env B signal out samplingFrequency lenSignal lenSegment lenOverlap
      windowType fftType nfft = Outcome.returned r)
    (hs : r.status = WELCH_FAILURE) :
    r.live = [] ∨
    (r.live = [Buffer.PxxInternal] ∧ env.granted Buffer.PxxInternal = true ∧
      env.granted Buffer.frequencyInternal = false) := by
  unfold welch at h
  repeat' split at h
  all_goals try dsimp only [failure] at h
  all_goals first
    | (cases h; left; rfl)
    | cases h
    | skip
  exact welchCompute_failure_live _ _ _ _ _ _ _ _ _ _ _ r h hs

/-- A successful call of `welch` passed the checks, completed the segment loop
started on fresh buffers and a zeroed accumulator, and published the scaled
accumulator and the frequency axis. -/
theorem welch_success_loop {K : Type} [LinearOrderedField K] (env : WelchEnv K)
    (B : Backends K) (signal : List K) (out : Outputs K) (samplingFrequency : K)
    (lenSignal lenSegment lenOverlap : Int) (windowType fftType : String) (nfft : Int)
    (r : Returned K)
    (h : welch env B signal out samplingFrequency lenSignal lenSegment lenOverlap
      windowType fftType nfft = Outcome.returned r)
    (hs : r.status = WELCH_SUCCESS) :
    0 < samplingFrequency ∧ 0 < lenSegment ∧ 0 ≤ lenOverlap ∧ lenSegment ≤ lenSignal ∧
    lenOverlap < lenSegment ∧ (lenSignal - lenOverlap) % (lenSegment - lenOverlap) = 0 ∧
    0 < nfft ∧
    ∃ (fftCall : Int) (windowedSignal signalfft frequencyBlock : List K) (s : SegmentState K),
      fftCallOf fftType = some fftCall ∧
      windowedSignal.length = lenSegment.toNat ∧
      frequencyBlock.length = (lenPxxInternal nfft).toNat ∧
      segmentLoop B signal (List.replicate lenSignal.toNat 1) lenSignal lenSegment lenOverlap
        fftCall nfft (lenPxxInternal nfft) (lenSignal.toNat + 1) 0
        ⟨windowedSignal, signalfft, List.replicate (lenPxxInternal nfft).toNat 0, []⟩
        = SegmentExit.completed s ∧
      cdiv (lenSignal - lenOverlap) (lenSegment - lenOverlap)
        = some ((lenSignal - lenOverlap) / (lenSegment - lenOverlap)) ∧
      r.out = ⟨some (scalePxx
                  (computeScale samplingFrequency (List.replicate lenSignal.toNat 1) lenSegment)
                  ((lenSignal - lenOverlap) / (lenSegment - lenOverlap))
                  (lenPxxInternal nfft) s.PxxInternal),
               some (getFrequencies samplingFrequency nfft (lenPxxInternal nfft)
                  frequencyBlock),
               lenPxxInternal nfft⟩ ∧
      r.calls = s.calls := by
  obtain ⟨hf, hsig, hseg, hov, hle, hlt, hmod, -, hn, block, fftCall, hblock, hcall, hc⟩ :=
    welch_success_inv env B signal out samplingFrequency lenSignal lenSegment lenOverlap
      windowType fftType nfft r h hs
  rcases welchCompute_returned _ _ _ _ _ _ _ _ _ _ _ r hc with ⟨hfail, -⟩ | ⟨-, hex⟩
  · rw [hs] at hfail; cases hfail
  obtain ⟨signalfft, PxxBlock, frequencyBlock, windowedSignal, s, numSegment,
    -, hP, hF, hW, hloop, hdiv, hout, hcalls⟩ := hex
  rw [forLoop_fill 0 _ _ (malloc_length _ _ _ _ hP)] at hloop
  rw [rectangularWindow_eq _ _ _ _ hblock] at hloop hout
  obtain ⟨-, hq⟩ := cdiv_eq_some _ _ _ hdiv
  rw [Int.tdiv_eq_ediv (by omega) (by omega)] at hq
  subst hq
  exact ⟨hf, hseg, hov, hle, hlt, hmod, hn, fftCall, windowedSignal, signalfft, frequencyBlock,
    s, hcall, malloc_length _ _ _ _ hW, malloc_length _ _ _ _ hF, hloop, hdiv, hout, hcalls⟩

/-- The provider invocations of a successful call of `welch`. -/
theorem welch_success_calls {K : Type} [LinearOrderedField K] (env : WelchEnv K)
    (B : Backends K) (signal : List K) (out : Outputs K) (samplingFrequency : K)
    (lenSignal lenSegment lenOverlap : Int) (windowType fftType : String) (nfft : Int)
    (r : Returned K)
    (h : welch env B signal out samplingFrequency lenSignal lenSegment lenOverlap
      windowType fftType nfft = Outcome.returned r)
    (hs : r.status = WELCH_SUCCESS) :
    r.calls.map (fun c => c.offset)
      = (List.range ((lenSignal - lenOverlap) / (lenSegment - lenOverlap)).toNat).map
          (fun k : Nat => (k : Int) * (lenSegment - lenOverlap)) ∧
    ∀ c ∈ r.calls, 0 ≤ c.offset ∧ c.offset + lenSegment ≤ lenSignal ∧ c.n = lenSegment ∧
      c.nfft = nfft ∧ c.x.length = lenSegment.toNat ∧
      ∀ m : Int, 0 ≤ m → m < lenSegment →
        rd c.x m = rd signal (c.offset + m) * rd (List.replicate lenSignal.toNat (1 : K)) m := by
  obtain ⟨-, -, -, hle, hlt, -, -, fftCall, ws, sf, fb, s, -, hws, -, hloop, -, -, hcalls⟩ :=
    welch_success_loop env B signal out samplingFrequency lenSignal lenSegment lenOverlap
      windowType fftType nfft r h hs
  rw [hcalls]
  exact segmentLoop_calls B signal _ lenSignal lenSegment lenOverlap fftCall nfft _ hle hlt
    _ _ s rfl hws hloop

/-- No call of `welch` ends with the segment loop out of fuel. -/
theorem welch_ne_diverges {K : Type} [LinearOrderedField K] (env : WelchEnv K)
    (B : Backends K) (signal : List K) (out : Outputs K) (samplingFrequency : K)
    (lenSignal lenSegment lenOverlap : Int) (windowType fftType : String) (nfft : Int) :
    welch env B signal out samplingFrequency lenSignal lenSegment lenOverlap
      windowType fftType nfft ≠ Outcome.diverges := by
  intro h
  unfold welch at h
  repeat' split at h
  all_goals try dsimp only [failure] at h
  all_goals first
    | cases h
    | skip
  rename_i h1 h2 h3 h4 h5 h6 _ remainder hrem h7 h8 _ block hblock _ fftCall hcall h9
  obtain ⟨hne, -⟩ := cmod_eq_some _ _ _ hrem
  unfold welchCompute at h
  repeat' split at h
  all_goals try dsimp only [failure] at h
  all_goals first
    | cases h
    | skip
  all_goals split at h
  all_goals cases h
  all_goals
    rename_i hfuel
    exact segmentLoop_terminates B signal _ lenSignal lenSegment lenOverlap fftCall nfft _
      (by omega) _ _ _ (by push_cast; omega) (by omega) hfuel

/-! ## What the checks of `welch` guarantee -/

/-- When `lenOverlap < lenSegment` and the earlier checks pass, a segmentation
that leaves a remainder is rejected: `welch` returns failure with no provider
invocation, no buffer allocated and the outputs untouched. -/
theorem welch_rejects_nonintegral_segmentation {K : Type} [LinearOrderedField K]
    (env : WelchEnv K) (B : Backends K) (signal : List K) (out : Outputs K)
    (samplingFrequency : K) (lenSignal lenSegment lenOverlap : Int)
    (windowType fftType : String) (nfft : Int)
    (hf : 0 < samplingFrequency) (hseg : 0 < lenSegment) (hov : 0 ≤ lenOverlap)
    (hle : lenSegment ≤ lenSignal) (hlt : lenOverlap < lenSegment)
    (hmod : (lenSignal - lenOverlap) % (lenSegment - lenOverlap) ≠ 0) :
    welch env B signal out samplingFrequency lenSignal lenSegment lenOverlap
      windowType fftType nfft = Outcome.returned ⟨WELCH_FAILURE, out, [], []⟩ := by
  have h1 : ¬ samplingFrequency ≤ 0 := not_le.mpr hf
  have h2 : ¬ lenSignal ≤ 0 := by omega
  have h3 : ¬ lenSegment ≤ 0 := by omega
  have h4 : ¬ lenOverlap < 0 := by omega
  have h5 : ¬ lenSignal < lenSegment := by omega
  have h6 : ¬ lenSegment < lenOverlap := by omega
  have hcm : cmod (lenSignal - lenOverlap) (lenSegment - lenOverlap)
      = some ((lenSignal - lenOverlap) % (lenSegment - lenOverlap)) := by
    unfold cmod
    rw [if_neg (by omega), Int.tmod_eq_emod (by omega) (by omega)]
  unfold welch
  rw [if_neg h1, if_neg h2, if_neg h3, if_neg h4, if_neg h5, if_neg h6, hcm]
  simp only [ne_eq, hmod, not_false_eq_true, if_true]
  rfl

/-- The scenario `lenSegment = 100`, `lenOverlap = 50`, `lenSignal = 175` is
rejected. -/
theorem welch_rejects_175_100_50 {K : Type} [LinearOrderedField K]
    (env : WelchEnv K) (B : Backends K) (signal : List K) (out : Outputs K)
    (windowType fftType : String) (nfft : Int) :
    welch env B signal out 1000 175 100 50 windowType fftType nfft
      = Outcome.returned ⟨WELCH_FAILURE, out, [], []⟩ :=
  welch_rejects_nonintegral_segmentation env B signal out 1000 175 100 50 windowType fftType
    nfft (by norm_num) (by decide) (by decide) (by decide) (by decide) (by decide)

/-- A successful call had parameters with `0 <= lenOverlap < lenSegment <=
lenSignal`, `nfft > 0` and `samplingFrequency > 0`. -/
theorem welch_success_parameters {K : Type} [LinearOrderedField K] (env : WelchEnv K)
    (B : Backends K) (signal : List K) (out : Outputs K) (samplingFrequency : K)
    (lenSignal lenSegment lenOverlap : Int) (windowType fftType : String) (nfft : Int)
    (r : Returned K)
    (h : welch env B signal out samplingFrequency lenSignal lenSegment lenOverlap
      windowType fftType nfft = Outcome.returned r)
    (hs : r.status = WELCH_SUCCESS) :
    0 ≤ lenOverlap ∧ lenOverlap < lenSegment ∧ lenSegment ≤ lenSignal ∧ 0 < nfft ∧
    0 < samplingFrequency := by
  obtain ⟨hf, -, -, hov, hle, hlt, -, -, hn, -⟩ :=
    welch_success_inv env B signal out samplingFrequency lenSignal lenSegment lenOverlap
      windowType fftType nfft r h hs
  exact ⟨hov, hlt, hle, hn, hf⟩

/-- Unless `lenSegment = lenOverlap` lets the segmentation check divide by
zero, a violated validation condition makes `welch` return failure with no
provider invocation and the outputs untouched; for the six conditions checked
before the division this holds without the proviso. -/
theorem welch_rejects_invalid_parameter {K : Type} [LinearOrderedField K] (env : WelchEnv K)
    (B : Backends K) (signal : List K) (out : Outputs K) (samplingFrequency : K)
    (lenSignal lenSegment lenOverlap : Int) (windowType fftType : String) (nfft : Int)
    (hbad : (samplingFrequency ≤ 0 ∨ lenSignal ≤ 0 ∨ lenSegment ≤ 0 ∨ lenOverlap < 0 ∨
        lenSignal < lenSegment ∨ lenSegment < lenOverlap) ∨
      (lenSegment ≠ lenOverlap ∧
        (windowType ≠ "rectangular" ∨
         ¬ (fftType = "fftw" ∨ fftType = "fftw_openmp" ∨ fftType = "cufft") ∨
         nfft ≤ 0))) :
    ∃ live, welch env B signal out samplingFrequency lenSignal lenSegment lenOverlap
      windowType fftType nfft = Outcome.returned ⟨WELCH_FAILURE, out, live, []⟩ := by
  have hcall : ¬ (fftType = "fftw" ∨ fftType = "fftw_openmp" ∨ fftType = "cufft") →
      fftCallOf fftType = none := by
    intro hn
    push_neg at hn
    simp [fftCallOf, hn.1, hn.2.1, hn.2.2]
  unfold welch
  by_cases h1 : samplingFrequency ≤ 0
  · rw [if_pos h1]; exact ⟨_, rfl⟩
  rw [if_neg h1]
  repeat' split
  all_goals first
    | exact ⟨_, rfl⟩
    | skip
  · -- the division by zero
    rename_i hnone
    unfold cmod at hnone
    split at hnone
    · rcases hbad with hb | ⟨hne, -⟩
      · rcases hb with hb | hb | hb | hb | hb | hb
        · exact absurd hb h1
        all_goals omega
      · omega
    · cases hnone
  · -- every check passed
    rename_i h2 h3 h4 h5 h6 _ _ _ _ hw _ _ _ _ fftCall hc hn
    rcases hbad with hb | ⟨-, hb | hb | hb⟩
    · rcases hb with hb | hb | hb | hb | hb | hb
      · exact absurd hb h1
      all_goals omega
    · exact absurd hw hb
    · rw [hcall hb] at hc
      cases hc
    · omega

/-- With the providers of the source, `welch` fails on its first segment
whenever `lenSegment > nfft`, whatever the other accepted parameters are. -/
theorem welch_fails_on_long_segment {K : Type} [LinearOrderedField K] (env : WelchEnv K)
    (libs : Nat → LibEnv K) (signal : List K) (out : Outputs K) (samplingFrequency : K)
    (lenSignal lenSegment lenOverlap : Int) (windowType fftType : String) (nfft : Int)
    (hf : 0 < samplingFrequency) (hsig : 0 < lenSignal) (hseg : 0 < lenSegment)
    (hov : 0 ≤ lenOverlap) (hle : lenSegment ≤ lenSignal) (hlt : lenOverlap < lenSegment)
    (hmod : (lenSignal - lenOverlap) % (lenSegment - lenOverlap) = 0)
    (hw : windowType = "rectangular")
    (hc : fftType = "fftw" ∨ fftType = "fftw_openmp" ∨ fftType = "cufft")
    (hn : 0 < nfft) (hg : ∀ b, env.granted b = true) (hlong : nfft < lenSegment) :
    ∃ r : Returned K,
      welch env (sourceBackends libs) signal out samplingFrequency
        lenSignal lenSegment lenOverlap windowType fftType nfft = Outcome.returned r ∧
      r.status = WELCH_FAILURE ∧ r.out = out ∧ r.calls.length = 1 := by
  obtain ⟨fftCall, hcall⟩ := fftCallOf_recognized fftType hc
  rw [welch_of_accepted env _ _ out samplingFrequency lenSignal lenSegment lenOverlap
    windowType fftType fftCall nfft hf hsig hseg hov hle hlt hmod hw hcall hn (hg _),
    welchCompute_of_granted env _ _ out samplingFrequency lenSignal lenSegment lenOverlap
    _ fftCall nfft hg]
  rw [segmentLoop, if_pos (by omega)]
  have hb : ∀ s : SegmentState K, s.calls = [] →
      (segmentBody (sourceBackends libs) signal (List.replicate lenSignal.toNat 1) lenSegment
        fftCall nfft (lenPxxInternal nfft) 0 s).1 = WELCH_FAILURE ∧
      (segmentBody (sourceBackends libs) signal (List.replicate lenSignal.toNat 1) lenSegment
        fftCall nfft (lenPxxInternal nfft) 0 s).2.calls.length = 1 := by
    intro s hs
    unfold segmentBody sourceBackends
    simp only [fftw_of_lt _ _ _ _ _ _ hlong, cufft_of_lt _ _ _ _ _ hlong, hs]
    split_ifs <;> simp_all
  dsimp only
  rw [if_pos (hb _ rfl).1]
  exact ⟨_, rfl, rfl, rfl, (hb _ rfl).2⟩

/-- On parameters that pass every check, with the buffers granted and a
selected provider that does not fail on the calls `welch` makes (`lenSegment`
samples, `nfft` points), `welch` returns success. -/
theorem welch_succeeds {K : Type} [LinearOrderedField K] (env : WelchEnv K) (B : Backends K)
    (signal : List K) (out : Outputs K) (samplingFrequency : K)
    (lenSignal lenSegment lenOverlap : Int) (windowType fftType : String) (nfft : Int)
    (hf : 0 < samplingFrequency) (hsig : 0 < lenSignal) (hseg : 0 < lenSegment)
    (hov : 0 ≤ lenOverlap) (hle : lenSegment ≤ lenSignal) (hlt : lenOverlap < lenSegment)
    (hmod : (lenSignal - lenOverlap) % (lenSegment - lenOverlap) = 0)
    (hw : windowType = "rectangular")
    (hc : fftType = "fftw" ∨ fftType = "fftw_openmp" ∨ fftType = "cufft")
    (hn : 0 < nfft) (hg : ∀ b, env.granted b = true)
    (hprov : ∀ fftCall, fftCallOf fftType = some fftCall →
      ∀ (k : Nat) (x xfft : List K), x.length = lenSegment.toNat →
        (providerResult B fftCall k x lenSegment xfft nfft).1 = WELCH_SUCCESS) :
    ∃ r : Returned K,
      welch env B signal out samplingFrequency lenSignal lenSegment lenOverlap
        windowType fftType nfft = Outcome.returned r ∧
      r.status = WELCH_SUCCESS := by
  obtain ⟨fftCall, hcall⟩ := fftCallOf_recognized fftType hc
  rw [welch_of_accepted env B _ out samplingFrequency lenSignal lenSegment lenOverlap
    windowType fftType fftCall nfft hf hsig hseg hov hle hlt hmod hw hcall hn (hg _),
    welchCompute_of_granted env B _ out samplingFrequency lenSignal lenSegment lenOverlap
    _ fftCall nfft hg]
  obtain ⟨s, hs, -⟩ := segmentLoop_completes B signal
    (List.replicate lenSignal.toNat 1) lenSignal lenSegment lenOverlap fftCall nfft
    (lenPxxInternal nfft) (fun s => s.windowedSignal.length = lenSegment.toNat) (by omega)
    (by
      intro i st hst
      have hwl := (windowSegment_spec signal (List.replicate lenSignal.toNat 1) lenSegment i
        st.windowedSignal hst).1
      rw [segmentBody_eq,
        if_neg (by rw [hprov fftCall hcall _ _ _ hwl]; intro hcon; cases hcon)]
      exact ⟨fun hcon => (by cases hcon), hwl⟩)
    (lenSignal.toNat + 1) 0
    ⟨(List.range lenSegment.toNat).map env.garbage, (List.range nfft.toNat).map env.garbage,
      List.replicate (lenPxxInternal nfft).toNat 0, []⟩
    (by simp) (by push_cast; omega) (by omega)
  rw [hs]
  have hdiv : cdiv (lenSignal - lenOverlap) (lenSegment - lenOverlap)
      = some (Int.tdiv (lenSignal - lenOverlap) (lenSegment - lenOverlap)) := by
    unfold cdiv
    rw [if_neg (by omega)]
  rw [hdiv]
  exact ⟨_, rfl, rfl⟩

/-! ## Binary64 arithmetic -/

/-- Values of the binary64 model: roundings to nearest with ties to even, in
the normal and the subnormal range and at the overflow threshold, and the
special cases of the operations. -/
theorem Double_values :
    Double.ofRat (1 / 3) = Double.finite false (6004799503160661 / 2 ^ 54) ∧
    Double.ofRat (1 / 10) = Double.finite false (3602879701896397 / 2 ^ 55) ∧
    Double.ofRat (-(1 / 10)) = Double.finite true (3602879701896397 / 2 ^ 55) ∧
    Double.ofRat (pow2 (-1075)) = 0 ∧
    Double.ofRat (3 * pow2 (-1075)) = Double.finite false (pow2 (-1073)) ∧
    Double.ofRat (pow2 1024 - pow2 971) = Double.finite false (pow2 1024 - pow2 971) ∧
    Double.ofRat (pow2 1024 - pow2 970) = Double.infinite false ∧
    Double.ofRat (1 / 10) + Double.ofRat (2 / 10)
      = Double.finite false (5404319552844596 / 2 ^ 54) ∧
    ¬ ((3 : Int) : Double) * Double.ofRat (1 / 10) / ((6 : Int) : Double)
        ≤ Double.ofRat (1 / 10) / 2 ∧
    (1 : Double) / 0 = Double.infinite false ∧
    (0 : Double) / 0 = Double.nan ∧
    (0 : Double) * Double.infinite false = Double.nan ∧
    ¬ Double.nan ≤ (0 : Double) := by
  refine ⟨by decide!, by decide!, by decide!, by decide!, by decide!, by decide!, by decide!,
    by decide!, by decide!, by decide!, by decide!, by decide!, by decide!⟩

/-! ## Example runs -/

/-- The run of `welch` on the signal 1, 2, 3, 4 with `nfft = 4`. -/
theorem sample_run_even :
    welch sampleEnv sampleBackends [1, 2, 3, 4] sampleOut 1 4 2 1 "rectangular" "fftw" 4 =
      Outcome.returned sampleRunEven := by
  decide!

/-- The run of `welch` on the signal 1, 2, 3, 4 with `nfft = 3`. -/
theorem sample_run_odd :
    welch sampleEnv sampleBackends [1, 2, 3, 4] sampleOut 1 4 2 1 "rectangular" "fftw" 3 =
      Outcome.returned sampleRunOdd := by
  decide!

/-! ## Claims -/

/-- C1: on every successful call of `welch` the published `lenPxx` equals
`nfft / 2 + 1` when `nfft` is even and `(nfft + 1) / 2` when `nfft` is odd; in
particular it is 4097 for `nfft = 8192` and 2048 for `nfft = 4095`. -/
theorem welch_lenPxx {K : Type} [LinearOrderedField K] (env : WelchEnv K) (B : Backends K)
    (signal : List K) (out : Outputs K) (samplingFrequency : K)
    (lenSignal lenSegment lenOverlap : Int) (windowType fftType : String) (nfft : Int)
    (r : Returned K)
    (h : welch env B signal out samplingFrequency lenSignal lenSegment lenOverlap
      windowType fftType nfft = Outcome.returned r)
    (hs : r.status = WELCH_SUCCESS) :
    (nfft % 2 = 0 → r.out.lenPxx = nfft / 2 + 1) ∧
    (nfft % 2 = 1 → r.out.lenPxx = (nfft + 1) / 2) ∧
    (nfft = 8192 → r.out.lenPxx = 4097) ∧
    (nfft = 4095 → r.out.lenPxx = 2048) := by
  obtain ⟨-, -, -, -, -, -, -, -, hn, block, fftCall, -, -, hc⟩ :=
    welch_success_inv env B signal out samplingFrequency lenSignal lenSegment lenOverlap
      windowType fftType nfft r h hs
  have hlen : r.out.lenPxx = lenPxxInternal nfft := by
    rcases welchCompute_returned _ _ _ _ _ _ _ _ _ _ _ r hc with ⟨hf, -⟩ | ⟨-, hex⟩
    · rw [hs] at hf; cases hf
    · obtain ⟨_, _, _, _, _, _, -, -, -, -, -, -, hout, -⟩ := hex
      rw [hout]
  rw [hlen, lenPxxInternal_of_pos nfft hn]
  refine ⟨?_, ?_, ?_, ?_⟩
  · intro he; rw [if_pos he]
  · intro ho; rw [if_neg (by omega)]
  · intro he; subst he; decide
  · intro ho; subst ho; decide

/-- Witness for C1: the run with `nfft = 4` succeeds and publishes
`lenPxx = 4 / 2 + 1`. -/
theorem welch_lenPxx_witness :
    welch sampleEnv sampleBackends [1, 2, 3, 4] sampleOut 1 4 2 1 "rectangular" "fftw" 4 =
      Outcome.returned sampleRunEven ∧
    sampleRunEven.status = WELCH_SUCCESS ∧ sampleRunEven.out.lenPxx = 4 / 2 + 1 :=
  ⟨sample_run_even, rfl,
    (welch_lenPxx sampleEnv sampleBackends [1, 2, 3, 4] sampleOut 1 4 2 1 "rectangular" "fftw" 4
      sampleRunEven sample_run_even rfl).1 (by decide)⟩

/-- C2: for odd `nfft` the final scaling step multiplies the last bin, which is
an interior bin, by `scale / numSegment` and not by `2 * scale / numSegment`:
with `nfft = 3` both bins get the same factor, and the run on the signal
1, 2, 3, 4 (accumulator 3, 6; scale 1/2; three segments) publishes 1 in bin 1
where doubling would give 2. -/
theorem scalePxx_odd_nfft_last_bin_not_doubled :
    (∀ (scale a b : ℚ) (numSegment : Int),
      scalePxx scale numSegment (lenPxxInternal 3) [a, b] =
        [a * (scale / numSegment), b * (scale / numSegment)]) ∧
    welch sampleEnv sampleBackends [1, 2, 3, 4] sampleOut 1 4 2 1 "rectangular" "fftw" 3 =
      Outcome.returned sampleRunOdd ∧
    sampleRunOdd.out.Pxx = some [3 * ((1 / 2) / 3), 6 * ((1 / 2) / 3)] ∧
    sampleRunOdd.out.Pxx ≠ some [3 * ((1 / 2) / 3), 6 * (2 * (1 / 2) / 3)] := by
  refine ⟨?_, sample_run_odd, by decide!, by decide!⟩
  intro scale a b numSegment
  have h2 : lenPxxInternal 3 = 2 := by decide
  rw [h2]
  simp [scalePxx, forLoop, List.range_succ, wr, rd]

/-- C3: with `lenSegment = lenOverlap = 5` and `lenSignal = 10` every earlier
check passes and the segmentation check divides by zero: the call ends in
undefined behaviour instead of returning failure. -/
theorem welch_segmentation_check_divides_by_zero {K : Type} [LinearOrderedField K]
    (env : WelchEnv K) (B : Backends K) (signal : List K) (out : Outputs K)
    (windowType fftType : String) (nfft : Int) :
    welch env B signal out 1 10 5 5 windowType fftType nfft = Outcome.undefinedBehaviour := by
  simp [welch, cmod]

/-- C4: an input with `lenOverlap = lenSegment` that passes the earlier checks
is not rejected as an invalid parameter: the divisor `lenSegment - lenOverlap`
is zero when the segmentation check evaluates it. -/
theorem welch_equal_overlap_not_rejected {K : Type} [LinearOrderedField K]
    (env : WelchEnv K) (B : Backends K) (signal : List K) (out : Outputs K)
    (samplingFrequency : K) (lenSignal lenSegment : Int)
    (windowType fftType : String) (nfft : Int)
    (hf : 0 < samplingFrequency) (hseg : 0 < lenSegment) (hsig : lenSegment ≤ lenSignal) :
    cmod (lenSignal - lenSegment) (lenSegment - lenSegment) = none ∧
    welch env B signal out samplingFrequency lenSignal lenSegment lenSegment
      windowType fftType nfft = Outcome.undefinedBehaviour := by
  have h1 : ¬ samplingFrequency ≤ 0 := not_le.mpr hf
  have h2 : ¬ lenSignal ≤ 0 := by omega
  have h3 : ¬ lenSegment ≤ 0 := by omega
  have h4 : ¬ lenSegment < 0 := by omega
  have h5 : ¬ lenSignal < lenSegment := by omega
  simp [welch, cmod, h1, h2, h3, h4, h5]

/-- Witness for C4: sampling frequency 1000, a signal of 16 samples, segments
and overlap of 4 samples. -/
theorem welch_equal_overlap_not_rejected_witness :
    (0 : ℚ) < 1000 ∧ (0 : Int) < 4 ∧ (4 : Int) ≤ 16 ∧
    cmod (16 - 4) (4 - 4) = none ∧
    welch sampleEnv sampleBackends [] sampleOut 1000 16 4 4 "rectangular" "fftw" 8 =
      Outcome.undefinedBehaviour :=
  ⟨by norm_num, by decide, by decide,
    welch_equal_overlap_not_rejected sampleEnv sampleBackends [] sampleOut 1000 16 4
      "rectangular" "fftw" 8 (by norm_num) (by decide) (by decide)⟩

/-- C5: whenever `welch` returns failure, whatever the cause, the
caller-visible outputs `*Pxx`, `*frequency` and `*lenPxx` are exactly as they
were before the call. -/
theorem welch_failure_preserves_outputs {K : Type} [LinearOrderedField K] (env : WelchEnv K)
    (B : Backends K) (signal : List K) (out : Outputs K) (samplingFrequency : K)
    (lenSignal lenSegment lenOverlap : Int) (windowType fftType : String) (nfft : Int)
    (r : Returned K)
    (h : welch env B signal out samplingFrequency lenSignal lenSegment lenOverlap
      windowType fftType nfft = Outcome.returned r)
    (hs : r.status = WELCH_FAILURE) :
    r.out = out := by
  unfold welch at h
  repeat' split at h
  all_goals first
    | exact (failure_eq_returned _ _ _ h).2.1
    | cases h
    | skip
  rcases welchCompute_returned _ _ _ _ _ _ _ _ _ _ _ r h with ⟨-, ho⟩ | ⟨hf, -⟩
  · exact ho
  · rw [hs] at hf; cases hf

/-- Witness for C5: a call with sampling frequency 0 fails and leaves the
outputs alone. -/
theorem welch_failure_preserves_outputs_witness :
    welch sampleEnv sampleBackends [1, 2, 3, 4] sampleOut 0 4 2 1 "rectangular" "fftw" 4 =
      Outcome.returned ⟨WELCH_FAILURE, sampleOut, [], []⟩ ∧
    (⟨WELCH_FAILURE, sampleOut, [], []⟩ : Returned ℚ).out = sampleOut :=
  ⟨by decide!,
    welch_failure_preserves_outputs sampleEnv sampleBackends [1, 2, 3, 4] sampleOut 0 4 2 1
      "rectangular" "fftw" 4 _ (by decide!) rfl⟩

/-- C6: with `lenSegment = lenOverlap` the checks of the window type, of the
backend identifier and of `nfft` are never reached: a call with window type
"hann", one with backend "mkl" and one with `nfft = 0` all end in undefined
behaviour instead of returning failure. -/
theorem welch_late_checks_unreached_on_equal_overlap :
    welch sampleEnv sampleBackends [1, 2, 3, 4] sampleOut 1 4 2 2 "hann" "fftw" 4 =
      Outcome.undefinedBehaviour ∧
    welch sampleEnv sampleBackends [1, 2, 3, 4] sampleOut 1 4 2 2 "rectangular" "mkl" 4 =
      Outcome.undefinedBehaviour ∧
    welch sampleEnv sampleBackends [1, 2, 3, 4] sampleOut 1 4 2 2 "rectangular" "fftw" 0 =
      Outcome.undefinedBehaviour := by
  refine ⟨by decide!, by decide!, by decide!⟩

/-- C7: the providers do not truncate.  On the two samples 1, 2 with transform
length 1 both `fftw` and `cufft` return failure and leave `xfft` alone, and
`welch` run with these providers on segments of length 2 and `nfft = 1` fails
on its first segment although every parameter check passes. -/
theorem providers_fail_on_long_input :
    fftw sampleLib [1, 2] 2 [9] 1 0 = (WELCH_FAILURE, [9]) ∧
    cufft sampleLib [1, 2] 2 [9] 1 = (WELCH_FAILURE, [9]) ∧
    welch sampleEnv (sourceBackends fun _ => sampleLib) [1, 2, 3, 4] sampleOut 1 4 2 1
      "rectangular" "fftw" 1 =
      Outcome.returned ⟨WELCH_FAILURE, sampleOut, [], [⟨0, [1, 2], 2, 1⟩]⟩ ∧
    welch sampleEnv (sourceBackends fun _ => sampleLib) [1, 2, 3, 4] sampleOut 1 4 2 1
      "rectangular" "cufft" 1 =
      Outcome.returned ⟨WELCH_FAILURE, sampleOut, [], [⟨0, [1, 2], 2, 1⟩]⟩ := by
  refine ⟨by decide!, by decide!, by decide!, by decide!⟩

/-- C8: for an array `x` of length `n` and `0 <= n <= nPadded`, with the
allocation granted, `padZero` returns success, leaves `x` unchanged and stores
in `*xPadded` a new array of length `nPadded` whose element `i` is `x[i]` for
`i < n` and 0 for `n <= i < nPadded`; when `n = nPadded` it is a copy of `x`.
The array is the one block it allocated, of `nPadded` cells. -/
theorem padZero_spec {K : Type} [Zero K] (garbage : Nat → K) (x : List K) (n : Int)
    (xPadded : Option (List K)) (nPadded : Int)
    (hx : x.length = n.toNat) (h0 : 0 ≤ n) (hle : n ≤ nPadded) :
    ∃ buf : List K,
      padZero true garbage x n xPadded nPadded = ⟨WELCH_SUCCESS, x, some buf, [nPadded]⟩ ∧
      buf.length = nPadded.toNat ∧
      (∀ i : Int, 0 ≤ i → i < n → rd buf i = rd x i) ∧
      (∀ i : Int, n ≤ i → i < nPadded → rd buf i = 0) ∧
      (n = nPadded → buf = x) :=
  padZero_granted garbage x n xPadded nPadded hx h0 hle

/-- Witness for C8: padding the array 1, 2 to length 4. -/
theorem padZero_spec_witness :
    ([1, 2] : List ℚ).length = (2 : Int).toNat ∧ (0 : Int) ≤ 2 ∧ (2 : Int) ≤ 4 ∧
    ∃ buf : List ℚ,
      padZero true (fun _ => 7) [1, 2] 2 none 4 = ⟨WELCH_SUCCESS, [1, 2], some buf, [4]⟩ ∧
      buf.length = (4 : Int).toNat ∧
      (∀ i : Int, 0 ≤ i → i < 2 → rd buf i = rd [1, 2] i) ∧
      (∀ i : Int, 2 ≤ i → i < 4 → rd buf i = 0) ∧
      ((2 : Int) = 4 → buf = [1, 2]) :=
  ⟨by decide, by decide, by decide,
    padZero_spec (fun _ => 7) [1, 2] 2 none 4 (by decide) (by decide) (by decide)⟩

/-- C10: on every successful call of `welch`, whatever spectra the provider
returned, every entry `Pxx[j]` with `0 <= j < lenPxx` is non-negative: the
published array is a non-negative accumulator scaled with a positive `scale`
and a segment count that is at least 1. -/
theorem welch_Pxx_nonneg {K : Type} [LinearOrderedField K] (env : WelchEnv K) (B : Backends K)
    (signal : List K) (out : Outputs K) (samplingFrequency : K)
    (lenSignal lenSegment lenOverlap : Int) (windowType fftType : String) (nfft : Int)
    (r : Returned K)
    (h : welch env B signal out samplingFrequency lenSignal lenSegment lenOverlap
      windowType fftType nfft = Outcome.returned r)
    (hs : r.status = WELCH_SUCCESS) :
    ∃ Pxx : List K, r.out.Pxx = some Pxx ∧ Pxx.length = r.out.lenPxx.toNat ∧
      (∀ j : Int, 0 ≤ j → j < r.out.lenPxx → 0 ≤ rd Pxx j) ∧
      ∃ (acc : List K) (scale : K) (numSegment : Int),
        0 < scale ∧ 1 ≤ numSegment ∧ (∀ j, 0 ≤ rd acc j) ∧
        Pxx = scalePxx scale numSegment r.out.lenPxx acc := by
  obtain ⟨hf, hsig, hseg, hov, hle, hlt, hmod, -, hn, block, fftCall, hblock, -, hc⟩ :=
    welch_success_inv env B signal out samplingFrequency lenSignal lenSegment lenOverlap
      windowType fftType nfft r h hs
  rcases welchCompute_returned _ _ _ _ _ _ _ _ _ _ _ r hc with ⟨hfail, -⟩ | ⟨-, hex⟩
  · rw [hs] at hfail; cases hfail
  obtain ⟨signalfft, PxxBlock, frequencyBlock, windowedSignal, s, numSegment,
    -, hP, -, -, hloop, hdiv, hout, -⟩ := hex
  rw [forLoop_fill 0 _ _ (malloc_length _ _ _ _ hP)] at hloop
  rw [rectangularWindow_eq _ _ _ _ hblock] at hloop hout
  -- the accumulator is non-negative and keeps its length
  have hacc : (∀ j, 0 ≤ rd s.PxxInternal j) ∧
      s.PxxInternal.length = (lenPxxInternal nfft).toNat := by
    refine segmentLoop_invariant B signal _ lenSignal lenSegment lenOverlap fftCall nfft
      (lenPxxInternal nfft)
      (fun s => (∀ j, 0 ≤ rd s.PxxInternal j) ∧
        s.PxxInternal.length = (lenPxxInternal nfft).toNat)
      ?_ _ _ _ s ?_ hloop
    · intro i st ⟨h1, h2⟩ hne
      obtain ⟨fft, hfft⟩ := segmentBody_PxxInternal B signal _ lenSegment fftCall nfft
        (lenPxxInternal nfft) i st hne
      rw [hfft]
      refine ⟨accumulate_pointwise (fun x => 0 ≤ x) fft nfft _ _ ?_ ?_ h1, ?_⟩
      · intro p k hp
        exact add_nonneg hp (mul_self_nonneg _)
      · intro p k l hp
        exact add_nonneg hp (add_nonneg (mul_self_nonneg _) (mul_self_nonneg _))
      · rw [accumulate_length, h2]
    · exact ⟨fun j => by simp [rd_replicate], by simp⟩
  -- the factors are positive
  have hscale : 0 < computeScale samplingFrequency (List.replicate lenSignal.toNat 1)
      lenSegment := by
    rw [computeScale_rectangular samplingFrequency lenSignal lenSegment (by omega) hle]
    have : (0 : K) < (lenSegment : K) := by exact_mod_cast hseg
    positivity
  obtain ⟨-, hq⟩ := cdiv_eq_some _ _ _ hdiv
  have hnum : 1 ≤ numSegment := by
    rw [hq, Int.tdiv_eq_ediv (by omega) (by omega)]
    exact Int.le_ediv_of_mul_le (by omega) (by omega)
  have hnumK : (0 : K) < (numSegment : K) := by exact_mod_cast (by omega : 0 < numSegment)
  rw [hout]
  refine ⟨_, rfl, ?_, ?_, s.PxxInternal, _, numSegment, hscale, hnum, hacc.1, rfl⟩
  · rw [scalePxx_length, hacc.2]
  · intro j _ _
    apply scalePxx_pointwise (fun x => 0 ≤ x) _ _ _ _ _ _ hacc.1
    · intro p hp
      exact mul_nonneg hp (by positivity)
    · intro p hp
      exact mul_nonneg hp (by positivity)

/-- Witness for C10: the run on the signal 1, 2, 3, 4 with `nfft = 4` succeeds
and publishes the non-negative array 1/2, 2, 1/2. -/
theorem welch_Pxx_nonneg_witness :
    welch sampleEnv sampleBackends [1, 2, 3, 4] sampleOut 1 4 2 1 "rectangular" "fftw" 4 =
      Outcome.returned sampleRunEven ∧
    sampleRunEven.status = WELCH_SUCCESS ∧
    ∃ Pxx : List ℚ, sampleRunEven.out.Pxx = some Pxx ∧
      Pxx.length = sampleRunEven.out.lenPxx.toNat ∧
      (∀ j : Int, 0 ≤ j → j < sampleRunEven.out.lenPxx → 0 ≤ rd Pxx j) ∧
      ∃ (acc : List ℚ) (scale : ℚ) (numSegment : Int),
        0 < scale ∧ 1 ≤ numSegment ∧ (∀ j, 0 ≤ rd acc j) ∧
        Pxx = scalePxx scale numSegment sampleRunEven.out.lenPxx acc :=
  ⟨sample_run_even, rfl,
    welch_Pxx_nonneg sampleEnv sampleBackends [1, 2, 3, 4] sampleOut 1 4 2 1 "rectangular"
      "fftw" 4 sampleRunEven sample_run_even rfl⟩

/-- C11: for `nfft > 0` and a complex spectrum `c` (real part of bin `i` at
`c[2i]`, imaginary part at `c[2i+1]`) the conversion of `fftw.c` writes the
indices 0, ..., `nfft - 1` of `xfft`, each exactly once, and nothing else, and
leaves the packed layout: `xfft[0] = Re c[0]`, `xfft[2i-1] = Re c[i]` and
`xfft[2i] = Im c[i]` for `1 <= i <= (nfft-1)/2`, and `xfft[nfft-1] = Re c[nfft/2]`
when `nfft` is even; the conversion of `cufft.c` is the same function. -/
theorem convert_packs_spectrum {K : Type} [Zero K] (c xfft : List K) (nfft : Int)
    (hn : 0 < nfft) (hlen : xfft.length = nfft.toNat) :
    fftw_convert c xfft nfft
      = (convertWrites c nfft).foldl (fun a (w : Int × K) => wr a w.1 w.2) xfft ∧
    (convertWrites c nfft).map Prod.fst
      = (List.range nfft.toNat).map (fun k : Nat => (k : Int)) ∧
    (fftw_convert c xfft nfft).length = nfft.toNat ∧
    rd (fftw_convert c xfft nfft) 0 = rd c (2 * 0) ∧
    (∀ i : Int, 1 ≤ i → i ≤ (nfft - 1) / 2 →
      rd (fftw_convert c xfft nfft) (2 * i - 1) = rd c (2 * i) ∧
      rd (fftw_convert c xfft nfft) (2 * i) = rd c (2 * i + 1)) ∧
    (nfft % 2 = 0 → rd (fftw_convert c xfft nfft) (nfft - 1) = rd c (2 * (nfft / 2))) ∧
    (cufft_convert : List K → List K → Int → List K) = fftw_convert := by
  obtain ⟨h1, h2, h3, h4⟩ := fftw_convert_layout c xfft nfft hn hlen
  exact ⟨fftw_convert_eq_writes c xfft nfft, convertWrites_indices c nfft hn, h1, h2, h3, h4,
    rfl⟩

/-- Witness for C11: `nfft = 4`, the spectrum 1, 2, 3, 4, 5, 6 of three
complex numbers, and an `xfft` holding 9, 9, 9, 9. -/
theorem convert_packs_spectrum_witness :
    ((0 : Int) < 4 ∧ ([9, 9, 9, 9] : List ℚ).length = (4 : Int).toNat) ∧
    fftw_convert [1, 2, 3, 4, 5, 6] [9, 9, 9, 9] 4 = ([1, 3, 4, 5] : List ℚ) ∧
    (convertWrites ([1, 2, 3, 4, 5, 6] : List ℚ) 4).map Prod.fst
      = (List.range (4 : Int).toNat).map (fun k : Nat => (k : Int)) :=
  ⟨⟨by decide, by decide⟩, by decide!,
    (convert_packs_spectrum ([1, 2, 3, 4, 5, 6] : List ℚ) [9, 9, 9, 9] 4 (by decide)
      (by decide)).2.1⟩

/-- C12: on success the published frequency array has length `lenPxx` and
`frequency[i] = i * samplingFrequency / nfft` for every `0 <= i < lenPxx`. -/
theorem welch_frequency {K : Type} [LinearOrderedField K] (env : WelchEnv K) (B : Backends K)
    (signal : List K) (out : Outputs K) (samplingFrequency : K)
    (lenSignal lenSegment lenOverlap : Int) (windowType fftType : String) (nfft : Int)
    (r : Returned K)
    (h : welch env B signal out samplingFrequency lenSignal lenSegment lenOverlap
      windowType fftType nfft = Outcome.returned r)
    (hs : r.status = WELCH_SUCCESS) :
    ∃ frequency : List K, r.out.frequency = some frequency ∧
      frequency.length = r.out.lenPxx.toNat ∧
      ∀ i : Int, 0 ≤ i → i < r.out.lenPxx →
        rd frequency i = (i : K) * samplingFrequency / (nfft : K) := by
  obtain ⟨-, -, -, -, -, -, -, -, -, block, fftCall, -, -, hc⟩ :=
    welch_success_inv env B signal out samplingFrequency lenSignal lenSegment lenOverlap
      windowType fftType nfft r h hs
  rcases welchCompute_returned _ _ _ _ _ _ _ _ _ _ _ r hc with ⟨hfail, -⟩ | ⟨-, hex⟩
  · rw [hs] at hfail; cases hfail
  obtain ⟨_, _, frequencyBlock, _, _, _, -, -, hF, -, -, -, hout, -⟩ := hex
  obtain ⟨h1, h2⟩ := getFrequencies_spec samplingFrequency nfft (lenPxxInternal nfft)
    frequencyBlock (malloc_length _ _ _ _ hF)
  rw [hout]
  exact ⟨_, rfl, h1, h2⟩

/-- Witness for C12: the run on the signal 1, 2, 3, 4 with `nfft = 4` and
sampling frequency 1 publishes the frequencies 0, 1/4, 1/2. -/
theorem welch_frequency_witness :
    welch sampleEnv sampleBackends [1, 2, 3, 4] sampleOut 1 4 2 1 "rectangular" "fftw" 4 =
      Outcome.returned sampleRunEven ∧
    sampleRunEven.status = WELCH_SUCCESS ∧
    ∃ frequency : List ℚ, sampleRunEven.out.frequency = some frequency ∧
      frequency.length = sampleRunEven.out.lenPxx.toNat ∧
      ∀ i : Int, 0 ≤ i → i < sampleRunEven.out.lenPxx →
        rd frequency i = (i : ℚ) * 1 / ((4 : Int) : ℚ) :=
  ⟨sample_run_even, rfl,
    welch_frequency sampleEnv sampleBackends [1, 2, 3, 4] sampleOut 1 4 2 1 "rectangular"
      "fftw" 4 sampleRunEven sample_run_even rfl⟩

/-- C13: `padZero` returns failure whenever `n > nPadded`, and then it has
made no call of `malloc` and has left `x` and `*xPadded` as they were, whatever
the allocator would have answered; in every other case it makes exactly one
call of `malloc`, for `nPadded` cells; and when that allocation is granted it
fails if and only if `n > nPadded`. -/
theorem padZero_failure {K : Type} [Zero K] (granted : Bool) (garbage : Nat → K) (x : List K)
    (n : Int) (xPadded : Option (List K)) (nPadded : Int) :
    (n > nPadded →
      padZero granted garbage x n xPadded nPadded = ⟨WELCH_FAILURE, x, xPadded, []⟩) ∧
    (¬ n > nPadded → (padZero granted garbage x n xPadded nPadded).requests = [nPadded]) ∧
    ((padZero true garbage x n xPadded nPadded).status = WELCH_FAILURE ↔ n > nPadded) := by
  refine ⟨fun h => padZero_of_lt granted garbage x n xPadded nPadded h, ?_, ?_, ?_⟩
  · intro hle
    unfold padZero
    rw [if_neg hle]
    split <;> rfl
  · intro hf
    by_contra hle
    unfold padZero at hf
    rw [if_neg hle, malloc_granted] at hf
    cases hf
  · intro h
    rw [padZero_of_lt true garbage x n xPadded nPadded h]

/-- Witness for C13: three samples do not fit a block of two cells, and no
allocation is made; two samples fit, and one block of two cells is requested. -/
theorem padZero_failure_witness :
    (3 : Int) > 2 ∧
    padZero true (fun _ => 7) ([1, 2, 3] : List ℚ) 3 (some [5]) 2
      = ⟨WELCH_FAILURE, [1, 2, 3], some [5], []⟩ ∧
    (¬ (2 : Int) > 2 ∧
      (padZero false (fun _ => 7) ([1, 2] : List ℚ) 2 (some [5]) 2).requests = [2]) ∧
    ((padZero true (fun _ => 7) ([1, 2, 3] : List ℚ) 3 (some [5]) 2).status = WELCH_FAILURE
      ↔ (3 : Int) > 2) :=
  ⟨by decide,
    (padZero_failure true (fun _ => 7) ([1, 2, 3] : List ℚ) 3 (some [5]) 2).1 (by decide),
    ⟨by decide,
      (padZero_failure false (fun _ => 7) ([1, 2] : List ℚ) 2 (some [5]) 2).2.1 (by decide)⟩,
    (padZero_failure true (fun _ => 7) ([1, 2, 3] : List ℚ) 3 (some [5]) 2).2.2⟩

/-- C14: the branch that handles a refused frequency buffer frees `signalfft`
and `window` but not the accumulator allocated just before: on the signal
1, 2, 3, 4 with every other allocation granted, `welch` returns failure with
`PxxInternal` still allocated, while the branch for a refused scratch buffer
releases everything. -/
theorem welch_leaks_accumulator_on_frequency_failure :
    welch sampleEnvNoFrequency sampleBackends [1, 2, 3, 4] sampleOut 1 4 2 1
      "rectangular" "fftw" 4 =
      Outcome.returned ⟨WELCH_FAILURE, sampleOut, [Buffer.PxxInternal], []⟩ ∧
    welch ⟨fun _ => 7, fun b => decide (b ≠ Buffer.windowedSignal)⟩ sampleBackends
      [1, 2, 3, 4] sampleOut 1 4 2 1 "rectangular" "fftw" 4 =
      Outcome.returned ⟨WELCH_FAILURE, sampleOut, [], []⟩ := by
  refine ⟨by decide!, by decide!⟩

/-- C15: on a successful call of `welch` the accumulator that the final scaling
is applied to holds, in bin 0, the sum over the processed segments of
`signalfft[0]^2` and, in bin `j` with `1 <= j < lenPxx`, the sum over the
segments of `signalfft[nfft-1]^2` when `nfft` is even and `j = lenPxx - 1` and
of `signalfft[2j-1]^2 + signalfft[2j]^2` otherwise (`binPower`), where
`signalfft` is what the provider returned, with success, for that segment's
windowed samples `signal[i+m] * window[m]`, `0 <= m < lenSegment`. -/
theorem welch_accumulator {K : Type} [LinearOrderedField K] (env : WelchEnv K)
    (B : Backends K) (signal : List K) (out : Outputs K) (samplingFrequency : K)
    (lenSignal lenSegment lenOverlap : Int) (windowType fftType : String) (nfft : Int)
    (r : Returned K)
    (h : welch env B signal out samplingFrequency lenSignal lenSegment lenOverlap
      windowType fftType nfft = Outcome.returned r)
    (hs : r.status = WELCH_SUCCESS) :
    ∃ (acc : List K) (spectra : List (List K)) (fftCall : Int),
      fftCallOf fftType = some fftCall ∧
      r.out.Pxx = some (scalePxx
        (computeScale samplingFrequency (List.replicate lenSignal.toNat 1) lenSegment)
        ((lenSignal - lenOverlap) / (lenSegment - lenOverlap)) r.out.lenPxx acc) ∧
      acc.length = r.out.lenPxx.toNat ∧
      spectra.length = r.calls.length ∧
      (∀ j : Int, 0 ≤ j → j < r.out.lenPxx →
        rd acc j = (spectra.map (fun f => binPower f nfft r.out.lenPxx j)).sum) ∧
      ∀ (k : Nat) (c : Invocation K) (f : List K),
        r.calls[k]? = some c → spectra[k]? = some f →
        (∃ xfft, providerResult B fftCall k c.x lenSegment xfft nfft = (WELCH_SUCCESS, f)) ∧
        ∀ m : Int, 0 ≤ m → m < lenSegment →
          rd c.x m = rd signal (c.offset + m) * rd (List.replicate lenSignal.toNat (1 : K)) m := by
  obtain ⟨-, -, -, -, -, -, hn, fftCall, ws, sf, fb, s, hcall, hws, -, hloop, -, hout, hcalls⟩ :=
    welch_success_loop env B signal out samplingFrequency lenSignal lenSegment lenOverlap
      windowType fftType nfft r h hs
  obtain ⟨spectra, h1, h2, h3, h4⟩ := segmentLoop_accumulator B signal _ lenSignal lenSegment
    lenOverlap fftCall nfft _ hn _ 0 ws sf s hws hloop
  rw [hout, hcalls]
  exact ⟨s.PxxInternal, spectra, fftCall, hcall, rfl, h2, h1, h3, h4⟩

/-- Witness for C15: the run on the signal 1, 2, 3, 4 with `nfft = 4`. -/
theorem welch_accumulator_witness :
    welch sampleEnv sampleBackends [1, 2, 3, 4] sampleOut 1 4 2 1 "rectangular" "fftw" 4 =
      Outcome.returned sampleRunEven ∧
    sampleRunEven.status = WELCH_SUCCESS ∧
    ∃ (acc : List ℚ) (spectra : List (List ℚ)) (fftCall : Int),
      fftCallOf "fftw" = some fftCall ∧
      sampleRunEven.out.Pxx = some (scalePxx
        (computeScale 1 (List.replicate (4 : Int).toNat 1) 2)
        (((4 : Int) - 1) / (2 - 1)) sampleRunEven.out.lenPxx acc) ∧
      acc.length = sampleRunEven.out.lenPxx.toNat ∧
      spectra.length = sampleRunEven.calls.length ∧
      (∀ j : Int, 0 ≤ j → j < sampleRunEven.out.lenPxx →
        rd acc j = (spectra.map (fun f => binPower f 4 sampleRunEven.out.lenPxx j)).sum) ∧
      ∀ (k : Nat) (c : Invocation ℚ) (f : List ℚ),
        sampleRunEven.calls[k]? = some c → spectra[k]? = some f →
        (∃ xfft, providerResult sampleBackends fftCall k c.x 2 xfft 4 = (WELCH_SUCCESS, f)) ∧
        ∀ m : Int, 0 ≤ m → m < 2 →
          rd c.x m = rd [1, 2, 3, 4] (c.offset + m)
            * rd (List.replicate (4 : Int).toNat (1 : ℚ)) m :=
  ⟨sample_run_even, rfl,
    welch_accumulator sampleEnv sampleBackends [1, 2, 3, 4] sampleOut 1 4 2 1 "rectangular"
      "fftw" 4 sampleRunEven sample_run_even rfl⟩

/-- C16: on a successful call (so the checks passed with `lenOverlap <
lenSegment`) the provider was invoked on exactly the segments at offsets
`k * (lenSegment - lenOverlap)`, `k = 0, ..., numSegment - 1`, in this order,
with `numSegment = (lenSignal - lenOverlap) / (lenSegment - lenOverlap)`; each
is a whole segment inside the signal; and the divisor used for the averaging
is the number of invocations: the published `Pxx` is the scaling, with that
number as divisor, of the accumulator `acc` whose bin `j` is the sum of the
squared magnitudes of the spectra returned by these invocations, and whenever
some bin of `acc` is not zero no other divisor yields the published `Pxx`. -/
theorem welch_segments {K : Type} [LinearOrderedField K] (env : WelchEnv K)
    (B : Backends K) (signal : List K) (out : Outputs K) (samplingFrequency : K)
    (lenSignal lenSegment lenOverlap : Int) (windowType fftType : String) (nfft : Int)
    (r : Returned K)
    (h : welch env B signal out samplingFrequency lenSignal lenSegment lenOverlap
      windowType fftType nfft = Outcome.returned r)
    (hs : r.status = WELCH_SUCCESS) :
    r.calls.map (fun c => c.offset)
      = (List.range ((lenSignal - lenOverlap) / (lenSegment - lenOverlap)).toNat).map
          (fun k : Nat => (k : Int) * (lenSegment - lenOverlap)) ∧
    (∀ c ∈ r.calls, 0 ≤ c.offset ∧ c.offset + lenSegment ≤ lenSignal ∧ c.n = lenSegment ∧
      c.x.length = lenSegment.toNat) ∧
    cdiv (lenSignal - lenOverlap) (lenSegment - lenOverlap) = some (r.calls.length : Int) ∧
    ∃ (acc : List K) (spectra : List (List K)) (fftCall : Int),
      fftCallOf fftType = some fftCall ∧
      acc.length = r.out.lenPxx.toNat ∧
      spectra.length = r.calls.length ∧
      (∀ j : Int, 0 ≤ j → j < r.out.lenPxx →
        rd acc j = (spectra.map (fun f => binPower f nfft r.out.lenPxx j)).sum) ∧
      (∀ (k : Nat) (c : Invocation K) (f : List K),
        r.calls[k]? = some c → spectra[k]? = some f →
        ∃ xfft, providerResult B fftCall k c.x lenSegment xfft nfft = (WELCH_SUCCESS, f)) ∧
      r.out.Pxx = some (scalePxx
        (computeScale samplingFrequency (List.replicate lenSignal.toNat 1) lenSegment)
        (r.calls.length : Int) r.out.lenPxx acc) ∧
      ∀ d : Int, (∃ j : Int, 0 ≤ j ∧ j < r.out.lenPxx ∧ rd acc j ≠ 0) →
        r.out.Pxx = some (scalePxx
          (computeScale samplingFrequency (List.replicate lenSignal.toNat 1) lenSegment)
          d r.out.lenPxx acc) →
        d = (r.calls.length : Int) := by
  obtain ⟨hoff, hall⟩ := welch_success_calls env B signal out samplingFrequency lenSignal
    lenSegment lenOverlap windowType fftType nfft r h hs
  obtain ⟨hf, hseg, hov, hle, hlt, -, hn, fftCall, ws, sf, fb, s, hcall, hws, -, hloop, hdiv,
      hout, hcalls⟩ :=
    welch_success_loop env B signal out samplingFrequency lenSignal lenSegment lenOverlap
      windowType fftType nfft r h hs
  obtain ⟨spectra, h1, h2, h3, h4⟩ := segmentLoop_accumulator B signal _ lenSignal lenSegment
    lenOverlap fftCall nfft _ hn _ 0 ws sf s hws hloop
  have hq : 1 ≤ (lenSignal - lenOverlap) / (lenSegment - lenOverlap) :=
    (Int.le_ediv_iff_mul_le (by omega)).mpr (by omega)
  have hlen : (r.calls.length : Int) = (lenSignal - lenOverlap) / (lenSegment - lenOverlap) := by
    have := congrArg List.length hoff
    rw [List.length_map, List.length_map, List.length_range] at this
    omega
  have hscale : computeScale samplingFrequency (List.replicate lenSignal.toNat 1) lenSegment
      ≠ 0 := by
    rw [computeScale_rectangular samplingFrequency lenSignal lenSegment (by omega) hle]
    have hsegK : (0 : K) < (lenSegment : K) := by exact_mod_cast hseg
    exact (one_div_pos.mpr (mul_pos hf hsegK)).ne'
  have hPxx : r.out.Pxx = some (scalePxx
      (computeScale samplingFrequency (List.replicate lenSignal.toNat 1) lenSegment)
      (r.calls.length : Int) r.out.lenPxx s.PxxInternal) := by
    rw [hlen, hout]
  have hL : r.out.lenPxx = lenPxxInternal nfft := by rw [hout]
  refine ⟨hoff, fun c hc => ?_, ?_, s.PxxInternal, spectra, fftCall, hcall, ?_, ?_, ?_, ?_,
    hPxx, ?_⟩
  · obtain ⟨c1, c2, c3, -, c5, -⟩ := hall c hc
    exact ⟨c1, c2, c3, c5⟩
  · rw [hdiv, hlen]
  · rw [hL]; exact h2
  · rw [hcalls]; exact h1
  · rw [hL]; exact h3
  · intro k c f hc hf'
    rw [hcalls] at hc
    exact (h4 k c f hc hf').1
  · rintro d ⟨j, hj0, hj1, hj⟩ hd
    rw [hPxx] at hd
    rw [hL] at hd hj1
    exact scalePxx_divisor_unique _ d _ _ s.PxxInternal h2 hscale (by omega) j hj0 hj1 hj
      (Option.some.inj hd).symm

/-- Witness for C16: the run on the signal 1, 2, 3, 4 with segments of length 2
overlapping by 1 makes three invocations, at offsets 0, 1, 2, and publishes
`Pxx = 1/2, 2, 1/2`, the accumulator 3, 6, 3 scaled with divisor 3. -/
theorem welch_segments_witness :
    welch sampleEnv sampleBackends [1, 2, 3, 4] sampleOut 1 4 2 1 "rectangular" "fftw" 4 =
      Outcome.returned sampleRunEven ∧
    sampleRunEven.status = WELCH_SUCCESS ∧
    sampleRunEven.calls.map (fun c => c.offset) = [0, 1, 2] ∧
    sampleRunEven.out.Pxx = some (scalePxx (computeScale 1 (List.replicate (4 : Int).toNat 1) 2)
      3 3 [3, 6, 3]) ∧
    (sampleRunEven.calls.map (fun c => c.offset)
      = (List.range (((4 : Int) - 1) / (2 - 1)).toNat).map
          (fun k : Nat => (k : Int) * (2 - 1)) ∧
    (∀ c ∈ sampleRunEven.calls, 0 ≤ c.offset ∧ c.offset + 2 ≤ 4 ∧ c.n = 2 ∧
      c.x.length = (2 : Int).toNat) ∧
    cdiv (4 - 1) (2 - 1) = some (sampleRunEven.calls.length : Int) ∧
    ∃ (acc : List ℚ) (spectra : List (List ℚ)) (fftCall : Int),
      fftCallOf "fftw" = some fftCall ∧
      acc.length = sampleRunEven.out.lenPxx.toNat ∧
      spectra.length = sampleRunEven.calls.length ∧
      (∀ j : Int, 0 ≤ j → j < sampleRunEven.out.lenPxx →
        rd acc j = (spectra.map (fun f => binPower f 4 sampleRunEven.out.lenPxx j)).sum) ∧
      (∀ (k : Nat) (c : Invocation ℚ) (f : List ℚ),
        sampleRunEven.calls[k]? = some c → spectra[k]? = some f →
        ∃ xfft, providerResult sampleBackends fftCall k c.x 2 xfft 4 = (WELCH_SUCCESS, f)) ∧
      sampleRunEven.out.Pxx = some (scalePxx
        (computeScale 1 (List.replicate (4 : Int).toNat 1) 2)
        (sampleRunEven.calls.length : Int) sampleRunEven.out.lenPxx acc) ∧
      ∀ d : Int, (∃ j : Int, 0 ≤ j ∧ j < sampleRunEven.out.lenPxx ∧ rd acc j ≠ 0) →
        sampleRunEven.out.Pxx = some (scalePxx
          (computeScale 1 (List.replicate (4 : Int).toNat 1) 2)
          d sampleRunEven.out.lenPxx acc) →
        d = (sampleRunEven.calls.length : Int)) :=
  ⟨sample_run_even, rfl, rfl, by decide!,
    welch_segments sampleEnv sampleBackends [1, 2, 3, 4] sampleOut 1 4 2 1 "rectangular"
      "fftw" 4 sampleRunEven sample_run_even rfl⟩

/-- C17: for `nfft > 0` the components of `signalfft` that the accumulation
step of `welch` uses for the bins 0, ..., `lenPxx - 1` of one segment are
exactly 0, 1, ..., `nfft - 1`, each once; every one lies in `[0, nfft)`; and
the step adds to each bin the squares of the components listed for it. -/
theorem accumulate_reads_each_component_once {K : Type} [LinearOrderedField K] (nfft : Int)
    (hn : 0 < nfft) :
    (List.range (lenPxxInternal nfft).toNat).flatMap
        (fun j : Nat => binComponents nfft (lenPxxInternal nfft) (j : Int))
      = (List.range nfft.toNat).map (fun k : Nat => (k : Int)) ∧
    (∀ j : Int, 0 ≤ j → j < lenPxxInternal nfft →
      ∀ k ∈ binComponents nfft (lenPxxInternal nfft) j, 0 ≤ k ∧ k < nfft) ∧
    (∀ (signalfft P : List K) (j : Int), P.length = (lenPxxInternal nfft).toNat →
      0 ≤ j → j < lenPxxInternal nfft →
      rd (accumulate signalfft nfft (lenPxxInternal nfft) P) j
        = rd P j + ((binComponents nfft (lenPxxInternal nfft) j).map
            (fun k => rd signalfft k * rd signalfft k)).sum) := by
  have hL := lenPxxInternal_of_pos nfft hn
  have ht : Int.tmod nfft 2 = nfft % 2 := Int.tmod_eq_emod (by omega) (by omega)
  refine ⟨?_, ?_, ?_⟩
  · by_cases he : nfft % 2 = 0
    · rw [if_pos he] at hL
      have e : (lenPxxInternal nfft).toNat = (nfft / 2).toNat + 1 := by omega
      have hb : binComponents nfft (lenPxxInternal nfft) (((nfft / 2).toNat : Nat) : Int)
          = [nfft - 1] := by
        unfold binComponents
        rw [if_neg (by omega), if_pos ⟨by omega, by omega⟩]
      have e1 : nfft.toNat = (2 * (nfft / 2).toNat - 1) + 1 := by omega
      have e2 : (((2 * (nfft / 2).toNat - 1 : Nat)) : Int) = nfft - 1 := by omega
      rw [e, List.range_succ, List.flatMap_append,
        binComponents_initial nfft _ _ (by omega) (fun j hj hc => by omega),
        List.flatMap_singleton, hb, e1, List.range_succ]
      simp only [List.map_append, List.map_cons, List.map_nil, e2]
    · rw [if_neg he] at hL
      have e1 : nfft.toNat = 2 * (lenPxxInternal nfft).toNat - 1 := by omega
      rw [binComponents_initial nfft _ _ (by omega) (fun j hj hc => by omega), e1]
  · intro j h0 h1 k hk
    unfold binComponents at hk
    split at hk
    · simp at hk; omega
    · split at hk
      · simp at hk; omega
      · rename_i hj hny
        have hny2 : ¬ (nfft % 2 = 0 ∧ j = lenPxxInternal nfft - 1) := by rwa [ht] at hny
        simp at hk
        by_cases he : nfft % 2 = 0
        · rw [if_pos he] at hL
          have : j ≠ lenPxxInternal nfft - 1 := fun hc => hny2 ⟨he, hc⟩
          omega
        · rw [if_neg he] at hL
          omega
  · intro signalfft P j hlen h0 h1
    rw [accumulate_spec signalfft nfft _ P hn hlen j h0 h1,
      binPower_eq_sum signalfft nfft _ j hn]

/-- Witness for C17: with `nfft = 4` the three bins use the components
0; 1, 2; 3. -/
theorem accumulate_reads_each_component_once_witness :
    (0 : Int) < 4 ∧
    (List.range (lenPxxInternal 4).toNat).flatMap
        (fun j : Nat => binComponents 4 (lenPxxInternal 4) (j : Int))
      = (List.range (4 : Int).toNat).map (fun k : Nat => (k : Int)) :=
  ⟨by decide, (accumulate_reads_each_component_once (K := ℚ) 4 (by decide)).1⟩

/-- C18: on parameters that pass the length checks and the segmentation check
of `welch`, the stride `lenSegment - lenOverlap` is strictly positive, so the
offset strictly increases, and the segment loop terminates whatever the
provider returns: run from offset 0 it ends, by completion or by a provider
failure, within `lenSignal + 1` iterations, more fuel does not change its
result, and `welch` does not diverge. -/
theorem welch_segment_loop_terminates {K : Type} [LinearOrderedField K] (env : WelchEnv K)
    (B : Backends K) (signal : List K) (out : Outputs K) (samplingFrequency : K)
    (lenSignal lenSegment lenOverlap : Int) (windowType fftType : String) (nfft : Int)
    (hsig : 0 < lenSignal) (hseg : 0 < lenSegment) (hge : lenOverlap ≤ lenSegment)
    (hmod : cmod (lenSignal - lenOverlap) (lenSegment - lenOverlap) = some 0) :
    0 < lenSegment - lenOverlap ∧
    (∀ i : Int, i < i + (lenSegment - lenOverlap)) ∧
    (∀ (window : List K) (fftCall L : Int) (s : SegmentState K),
      segmentLoop B signal window lenSignal lenSegment lenOverlap fftCall nfft L
        (lenSignal.toNat + 1) 0 s ≠ SegmentExit.outOfFuel ∧
      ∀ extra : Nat,
        segmentLoop B signal window lenSignal lenSegment lenOverlap fftCall nfft L
          (lenSignal.toNat + 1 + extra) 0 s
        = segmentLoop B signal window lenSignal lenSegment lenOverlap fftCall nfft L
          (lenSignal.toNat + 1) 0 s) ∧
    welch env B signal out samplingFrequency lenSignal lenSegment lenOverlap
      windowType fftType nfft ≠ Outcome.diverges := by
  obtain ⟨hne, -⟩ := cmod_eq_some _ _ _ hmod
  have hstride : 0 < lenSegment - lenOverlap := by omega
  refine ⟨hstride, fun i => by omega, fun window fftCall L s => ?_,
    welch_ne_diverges _ _ _ _ _ _ _ _ _ _ _⟩
  have hterm := segmentLoop_terminates B signal window lenSignal lenSegment lenOverlap fftCall
    nfft L hstride (lenSignal.toNat + 1) 0 s (by push_cast; omega) (by omega)
  exact ⟨hterm, fun extra => segmentLoop_fuel_mono _ _ _ _ _ _ _ _ _ _ _ _ hterm extra⟩

/-- Witness for C18: a signal of 4 samples, segments of length 2 overlapping
by 1. -/
theorem welch_segment_loop_terminates_witness :
    ((0 : Int) < 4 ∧ (0 : Int) < 2 ∧ (1 : Int) ≤ 2 ∧ cmod (4 - 1) (2 - 1) = some 0) ∧
    (0 : Int) < 2 - 1 ∧
    welch sampleEnv sampleBackends [1, 2, 3, 4] sampleOut 1 4 2 1 "rectangular" "fftw" 4
      ≠ Outcome.diverges :=
  ⟨⟨by decide, by decide, by decide, by decide⟩,
    (welch_segment_loop_terminates sampleEnv sampleBackends [1, 2, 3, 4] sampleOut 1 4 2 1
      "rectangular" "fftw" 4 (by decide) (by decide) (by decide) (by decide)).1,
    (welch_segment_loop_terminates sampleEnv sampleBackends [1, 2, 3, 4] sampleOut 1 4 2 1
      "rectangular" "fftw" 4 (by decide) (by decide) (by decide) (by decide)).2.2.2⟩

/-- C19: the device-to-host copy of `cufft` does not transfer every component
the packing step reads.  With `nfft = 2` the device result 1, 2, 1, 2 gives
the packed output 1, 7, and with `nfft = 3` the device result 1, 2, 3, 1, 2, 3
gives 1, 3, 7, where 7 is the content of uninitialised host memory; `fftw` on
the same library output gives 1, 1 and 1, 3, 1. -/
theorem cufft_copy_misses_last_component :
    cufft sampleLib [1, 2] 2 [9, 9] 2 = (WELCH_SUCCESS, [1, 7]) ∧
    fftw sampleLib [1, 2] 2 [9, 9] 2 0 = (WELCH_SUCCESS, [1, 1]) ∧
    cufft sampleLib [1, 2, 3] 3 [9, 9, 9] 3 = (WELCH_SUCCESS, [1, 3, 7]) ∧
    fftw sampleLib [1, 2, 3] 3 [9, 9, 9] 3 0 = (WELCH_SUCCESS, [1, 3, 1]) := by
  refine ⟨by decide!, by decide!, by decide!, by decide!⟩

/-- C20: on a successful call (so the checks passed with `0 <= lenOverlap <
lenSegment`) the processed segments cover the signal: every sample index in
`[0, lenSignal)` lies in a processed segment `[i, i + lenSegment)`, and the
last processed segment ends exactly at `lenSignal`. -/
theorem welch_segments_cover {K : Type} [LinearOrderedField K] (env : WelchEnv K)
    (B : Backends K) (signal : List K) (out : Outputs K) (samplingFrequency : K)
    (lenSignal lenSegment lenOverlap : Int) (windowType fftType : String) (nfft : Int)
    (r : Returned K)
    (h : welch env B signal out samplingFrequency lenSignal lenSegment lenOverlap
      windowType fftType nfft = Outcome.returned r)
    (hs : r.status = WELCH_SUCCESS) :
    (∀ t : Int, 0 ≤ t → t < lenSignal →
      ∃ c ∈ r.calls, c.offset ≤ t ∧ t < c.offset + lenSegment) ∧
    ∃ c, r.calls.getLast? = some c ∧ c.offset + lenSegment = lenSignal ∧
      ∀ c' ∈ r.calls, c'.offset ≤ c.offset := by
  obtain ⟨hoff, hall⟩ := welch_success_calls env B signal out samplingFrequency lenSignal
    lenSegment lenOverlap windowType fftType nfft r h hs
  obtain ⟨-, hseg, hov, hle, hlt, hmod, -, -⟩ :=
    welch_success_loop env B signal out samplingFrequency lenSignal lenSegment lenOverlap
      windowType fftType nfft r h hs
  have hstride : 0 < lenSegment - lenOverlap := by omega
  have hq1 : 1 ≤ (lenSignal - lenOverlap) / (lenSegment - lenOverlap) :=
    Int.le_ediv_of_mul_le hstride (by omega)
  have hqmul : (lenSignal - lenOverlap) / (lenSegment - lenOverlap) * (lenSegment - lenOverlap)
      = lenSignal - lenOverlap := by
    have := Int.mul_ediv_cancel_of_emod_eq_zero hmod
    rw [mul_comm] at this
    exact this
  generalize hqdef : (lenSignal - lenOverlap) / (lenSegment - lenOverlap) = q at hoff hq1 hqmul
  -- every offset of the list belongs to an invocation
  have hmem : ∀ k : Nat, (k : Int) < q →
      ∃ c ∈ r.calls, c.offset = (k : Int) * (lenSegment - lenOverlap) := by
    intro k hk
    have : (k : Int) * (lenSegment - lenOverlap) ∈ r.calls.map (fun c => c.offset) := by
      rw [hoff]
      exact List.mem_map.mpr ⟨k, List.mem_range.mpr (by omega), rfl⟩
    obtain ⟨c, hc, hco⟩ := List.mem_map.mp this
    exact ⟨c, hc, hco⟩
  have hmemoff : ∀ c ∈ r.calls, ∃ k : Nat, (k : Int) < q ∧
      c.offset = (k : Int) * (lenSegment - lenOverlap) := by
    intro c hc
    have : c.offset ∈ r.calls.map (fun c => c.offset) := List.mem_map.mpr ⟨c, hc, rfl⟩
    rw [hoff] at this
    obtain ⟨k, hk, hko⟩ := List.mem_map.mp this
    exact ⟨k, by have := List.mem_range.mp hk; omega, hko.symm⟩
  constructor
  · intro t ht0 ht1
    have hd0 : 0 ≤ t / (lenSegment - lenOverlap) := Int.ediv_nonneg ht0 (by omega)
    have hd1 : t / (lenSegment - lenOverlap) * (lenSegment - lenOverlap) ≤ t :=
      Int.ediv_mul_le t (by omega)
    have hd2 : t < (t / (lenSegment - lenOverlap) + 1) * (lenSegment - lenOverlap) :=
      Int.lt_ediv_add_one_mul_self t hstride
    have hd3 : (t / (lenSegment - lenOverlap) + 1) * (lenSegment - lenOverlap)
        = t / (lenSegment - lenOverlap) * (lenSegment - lenOverlap)
          + (lenSegment - lenOverlap) := by ring
    by_cases hk : t / (lenSegment - lenOverlap) < q
    · obtain ⟨c, hc, hco⟩ := hmem (t / (lenSegment - lenOverlap)).toNat (by omega)
      have e : (((t / (lenSegment - lenOverlap)).toNat : Nat) : Int)
          = t / (lenSegment - lenOverlap) := by omega
      rw [e] at hco
      exact ⟨c, hc, by omega, by omega⟩
    · obtain ⟨c, hc, hco⟩ := hmem (q - 1).toNat (by omega)
      have e : (((q - 1).toNat : Nat) : Int) = q - 1 := by omega
      rw [e] at hco
      have e2 : (q - 1) * (lenSegment - lenOverlap)
          = q * (lenSegment - lenOverlap) - (lenSegment - lenOverlap) := by ring
      have hmono : q * (lenSegment - lenOverlap)
          ≤ t / (lenSegment - lenOverlap) * (lenSegment - lenOverlap) :=
        Int.mul_le_mul_of_nonneg_right (by omega) (by omega)
      exact ⟨c, hc, by omega, by omega⟩
  · have hlen : r.calls.length = q.toNat := by
      have := congrArg List.length hoff
      rw [List.length_map, List.length_map, List.length_range] at this
      exact this
    have hlast : (r.calls.map (fun c => c.offset))[q.toNat - 1]?
        = some ((q - 1) * (lenSegment - lenOverlap)) := by
      rw [hoff, List.getElem?_map, List.getElem?_range (by omega)]
      have e : (((q.toNat - 1 : Nat)) : Int) = q - 1 := by omega
      simp only [Option.map_some', e]
    rw [List.getElem?_map] at hlast
    cases hc : r.calls[q.toNat - 1]? with
    | none => rw [hc] at hlast; cases hlast
    | some c =>
      rw [hc] at hlast
      simp only [Option.map_some', Option.some.injEq] at hlast
      have e2 : (q - 1) * (lenSegment - lenOverlap)
          = q * (lenSegment - lenOverlap) - (lenSegment - lenOverlap) := by ring
      refine ⟨c, ?_, by omega, ?_⟩
      · rw [List.getLast?_eq_getElem?, hlen, hc]
      · intro c' hc'
        obtain ⟨k, hk, hko⟩ := hmemoff c' hc'
        rw [hko, hlast]
        exact Int.mul_le_mul_of_nonneg_right (by omega) (by omega)

/-- Witness for C20: the run on the signal 1, 2, 3, 4 with segments of length 2
overlapping by 1. -/
theorem welch_segments_cover_witness :
    welch sampleEnv sampleBackends [1, 2, 3, 4] sampleOut 1 4 2 1 "rectangular" "fftw" 4 =
      Outcome.returned sampleRunEven ∧
    sampleRunEven.status = WELCH_SUCCESS ∧
    (∀ t : Int, 0 ≤ t → t < 4 →
      ∃ c ∈ sampleRunEven.calls, c.offset ≤ t ∧ t < c.offset + 2) ∧
    ∃ c, sampleRunEven.calls.getLast? = some c ∧ c.offset + 2 = 4 ∧
      ∀ c' ∈ sampleRunEven.calls, c'.offset ≤ c.offset :=
  ⟨sample_run_even, rfl,
    welch_segments_cover sampleEnv sampleBackends [1, 2, 3, 4] sampleOut 1 4 2 1 "rectangular"
      "fftw" 4 sampleRunEven sample_run_even rfl⟩

/-- C21: on success the published frequency axis starts at `frequency[0] = 0`,
is strictly increasing, never exceeds `samplingFrequency / 2`, and its last
entry `frequency[lenPxx - 1]` equals `samplingFrequency / 2` when `nfft` is
even and is strictly less than `samplingFrequency / 2` when `nfft` is odd
(exact arithmetic). -/
theorem welch_frequency_axis {K : Type} [LinearOrderedField K] (env : WelchEnv K)
    (B : Backends K) (signal : List K) (out : Outputs K) (samplingFrequency : K)
    (lenSignal lenSegment lenOverlap : Int) (windowType fftType : String) (nfft : Int)
    (r : Returned K)
    (h : welch env B signal out samplingFrequency lenSignal lenSegment lenOverlap
      windowType fftType nfft = Outcome.returned r)
    (hs : r.status = WELCH_SUCCESS) :
    ∃ frequency : List K, r.out.frequency = some frequency ∧
      frequency.length = r.out.lenPxx.toNat ∧ 0 < r.out.lenPxx ∧
      rd frequency 0 = 0 ∧
      (∀ i j : Int, 0 ≤ i → i < j → j < r.out.lenPxx → rd frequency i < rd frequency j) ∧
      (∀ i : Int, 0 ≤ i → i < r.out.lenPxx → rd frequency i ≤ samplingFrequency / 2) ∧
      (nfft % 2 = 0 → rd frequency (r.out.lenPxx - 1) = samplingFrequency / 2) ∧
      (nfft % 2 = 1 → rd frequency (r.out.lenPxx - 1) < samplingFrequency / 2) := by
  obtain ⟨hf, -, -, -, -, -, hn, _, _, _, frequencyBlock, _, -, -, hF, -, -, hout, -⟩ :=
    welch_success_loop env B signal out samplingFrequency lenSignal lenSegment lenOverlap
      windowType fftType nfft r h hs
  obtain ⟨h0, hinc, hle, he, ho⟩ :=
    getFrequencies_axis samplingFrequency nfft frequencyBlock hF hf hn
  have hpos : 0 < lenPxxInternal nfft := by
    rw [lenPxxInternal_of_pos nfft hn]; split <;> omega
  rw [hout]
  exact ⟨_, rfl,
    (getFrequencies_spec samplingFrequency nfft (lenPxxInternal nfft) frequencyBlock hF).1,
    hpos, h0, hinc, hle, he, ho⟩

/-- Witness for C21: the run on the signal 1, 2, 3, 4 with `nfft = 4` and
sampling frequency 1 publishes the axis 0, 1/4, 1/2, whose last entry is half
the sampling frequency; the run with `nfft = 3` publishes the axis 0, 1/3,
whose last entry is below it. -/
theorem welch_frequency_axis_witness :
    (welch sampleEnv sampleBackends [1, 2, 3, 4] sampleOut 1 4 2 1 "rectangular" "fftw" 4 =
      Outcome.returned sampleRunEven ∧
     sampleRunEven.status = WELCH_SUCCESS ∧
     sampleRunEven.out.frequency = some [0, 1 / 4, 1 / 2] ∧ (4 : Int) % 2 = 0 ∧
     ∃ frequency : List ℚ, sampleRunEven.out.frequency = some frequency ∧
      frequency.length = sampleRunEven.out.lenPxx.toNat ∧ 0 < sampleRunEven.out.lenPxx ∧
      rd frequency 0 = 0 ∧
      (∀ i j : Int, 0 ≤ i → i < j → j < sampleRunEven.out.lenPxx →
        rd frequency i < rd frequency j) ∧
      (∀ i : Int, 0 ≤ i → i < sampleRunEven.out.lenPxx → rd frequency i ≤ (1 : ℚ) / 2) ∧
      ((4 : Int) % 2 = 0 → rd frequency (sampleRunEven.out.lenPxx - 1) = (1 : ℚ) / 2) ∧
      ((4 : Int) % 2 = 1 → rd frequency (sampleRunEven.out.lenPxx - 1) < (1 : ℚ) / 2)) ∧
    (welch sampleEnv sampleBackends [1, 2, 3, 4] sampleOut 1 4 2 1 "rectangular" "fftw" 3 =
      Outcome.returned sampleRunOdd ∧
     sampleRunOdd.status = WELCH_SUCCESS ∧
     sampleRunOdd.out.frequency = some [0, 1 / 3] ∧ (3 : Int) % 2 = 1 ∧
     ∃ frequency : List ℚ, sampleRunOdd.out.frequency = some frequency ∧
      frequency.length = sampleRunOdd.out.lenPxx.toNat ∧ 0 < sampleRunOdd.out.lenPxx ∧
      rd frequency 0 = 0 ∧
      (∀ i j : Int, 0 ≤ i → i < j → j < sampleRunOdd.out.lenPxx →
        rd frequency i < rd frequency j) ∧
      (∀ i : Int, 0 ≤ i → i < sampleRunOdd.out.lenPxx → rd frequency i ≤ (1 : ℚ) / 2) ∧
      ((3 : Int) % 2 = 0 → rd frequency (sampleRunOdd.out.lenPxx - 1) = (1 : ℚ) / 2) ∧
      ((3 : Int) % 2 = 1 → rd frequency (sampleRunOdd.out.lenPxx - 1) < (1 : ℚ) / 2)) :=
  ⟨⟨sample_run_even, rfl, rfl, by decide,
      welch_frequency_axis sampleEnv sampleBackends [1, 2, 3, 4] sampleOut 1 4 2 1
        "rectangular" "fftw" 4 sampleRunEven sample_run_even rfl⟩,
    ⟨sample_run_odd, rfl, rfl, by decide,
      welch_frequency_axis sampleEnv sampleBackends [1, 2, 3, 4] sampleOut 1 4 2 1
        "rectangular" "fftw" 3 sampleRunOdd sample_run_odd rfl⟩⟩

end Welch
